import Mathlib

/-!
Verification of the SharePoint 2019 modular menu system (BusselW/Menu).

Shallow embedding of:
  * `DataCache` (src/core/scripts/data-retrieval.js, lines 21-71)
  * `DataRetrieval.transformSharePointData` (same file, lines 264-302)
  * `DataRetrieval.normalizeData` / `normalizeItem` (same file, lines 309-346)
  * `MenuConfig` construction and validation (src/unnamed/part_000, lines 395-461)
  * the `MenuEngine` listener / timer / submenu state machine
    (src/unnamed/part_000, lines 562-1237)

JavaScript numbers that are used as integers are modelled as `Nat` / `Int`;
JavaScript `Map` objects are modelled as association lists with `Map` update
semantics (overwrite keeps the original insertion position); `Date.now()` and
`window.innerWidth` are passed explicitly; timers are modelled symbolically as
pending (handle, action) pairs with fresh handles.
-/

set_option maxHeartbeats 1600000
set_option maxRecDepth 8192

/-! ## JavaScript helpers -/

/-- JS `a || d` for an optional string `a`: `undefined`, `null` and the empty
string (all falsy) fall through to the default. -/
def jsStrOr : Option String → String → String
  | none, d => d
  | some s, d => if s = "" then d else s

/-- JS `a || b || ... || d` over a chain of optional strings. -/
def jsStrChain : List (Option String) → String → String
  | [], d => d
  | none :: rest, d => jsStrChain rest d
  | some s :: rest, d => if s = "" then jsStrChain rest d else s

/-- JS `a || null` for an optional string: an empty string collapses to null. -/
def jsStrOrNull : Option String → Option String
  | none => none
  | some s => if s = "" then none else some s

/-- JS `Map.prototype.get`. -/
def jsMapGet {κ α : Type} [DecidableEq κ] (m : List (κ × α)) (k : κ) : Option α :=
  (m.find? (fun it => it.1 = k)).map (fun it => it.2)

/-- JS `Map.prototype.set`: overwriting an existing key keeps its original
insertion position, a new key is appended. -/
def jsMapSet {κ α : Type} [DecidableEq κ] (m : List (κ × α)) (k : κ) (v : α) : List (κ × α) :=
  if m.any (fun it => it.1 = k) then m.map (fun it => if it.1 = k then (k, v) else it)
  else m ++ [(k, v)]

/-- JS `Map.prototype.delete`. -/
def jsMapDelete {κ α : Type} [DecidableEq κ] (m : List (κ × α)) (k : κ) : List (κ × α) :=
  m.filter (fun it => it.1 ≠ k)

/-- JS `Map.prototype.has`. -/
def jsMapHas {κ α : Type} [DecidableEq κ] (m : List (κ × α)) (k : κ) : Bool :=
  m.any (fun it => it.1 = k)

/-! ## DataCache (data-retrieval.js lines 21-71)

`this.cache` is a `Map` from string keys to `{data, expiry}` records, the
payload type is opaque to the cache (type parameter `α`).  `Date.now()` is the
explicit `now` argument. -/

structure CacheEntry (α : Type) where
  data : α
  expiry : Nat
deriving Repr, DecidableEq

structure DataCache (α : Type) where
  cache : List (String × CacheEntry α)
  duration : Nat
deriving Repr, DecidableEq

/-- `new DataCache(duration)`; the JS default argument is 300000. -/
def DataCache.new (α : Type) (duration : Nat) : DataCache α :=
  { cache := [], duration := duration }

/-- `DataCache.get` (lines 32-42): returns the stored data, or `null` when the
key is absent; when `Date.now() > item.expiry` the entry is deleted and `null`
is returned.  The (possibly updated) cache is returned alongside the result. -/
def DataCache.get {α : Type} (c : DataCache α) (now : Nat) (key : String) :
    Option α × DataCache α :=
  match jsMapGet c.cache key with
  | none => (none, c)
  | some item =>
    if now > item.expiry then (none, { c with cache := jsMapDelete c.cache key })
    else (some item.data, c)

/-- The `duration || this.duration` fallback in `DataCache.set`: an absent
argument — and, JS falsiness, a zero argument — selects the default. -/
def DataCache.effectiveDuration {α : Type} (c : DataCache α) (duration : Option Nat) : Nat :=
  match duration with
  | none => c.duration
  | some d => if d = 0 then c.duration else d

/-- `DataCache.set` (lines 50-55): stores `{data, expiry: Date.now() + (duration || this.duration)}`,
overwriting any prior entry for the key. -/
def DataCache.set {α : Type} (c : DataCache α) (now : Nat) (key : String) (data : α)
    (duration : Option Nat) : DataCache α :=
  { c with cache := jsMapSet c.cache key { data := data, expiry := now + c.effectiveDuration duration } }

/-! ## MenuConfig (src/unnamed/part_000 lines 327-540)

Only the validated scalar options are modelled; `mergeConfig` over the nested
default object specialises, for these scalars, to `Option.getD` against
`DEFAULT_CONFIG`. -/

structure MergedMenuConfig where
  layers : Int
  triggerType : String
  dataSourceType : String
  hoverDelay : Int
  closeDelay : Int
deriving Repr, DecidableEq

structure MenuOptions where
  layers : Option Int := none
  triggerType : Option String := none
  dataSourceType : Option String := none
  hoverDelay : Option Int := none
  closeDelay : Option Int := none
deriving Repr, DecidableEq

/-- The relevant scalar fields of `DEFAULT_CONFIG` (lines 334-390). -/
def defaultMenuConfig : MergedMenuConfig :=
  { layers := 3, triggerType := "hover", dataSourceType := "static",
    hoverDelay := 150, closeDelay := 300 }

/-- `mergeConfig(DEFAULT_CONFIG, options)` restricted to the validated scalars. -/
def mergeConfig (opts : MenuOptions) : MergedMenuConfig :=
  { layers := opts.layers.getD defaultMenuConfig.layers
    triggerType := opts.triggerType.getD defaultMenuConfig.triggerType
    dataSourceType := opts.dataSourceType.getD defaultMenuConfig.dataSourceType
    hoverDelay := opts.hoverDelay.getD defaultMenuConfig.hoverDelay
    closeDelay := opts.closeDelay.getD defaultMenuConfig.closeDelay }

/-- `validateConfig` (lines 430-461): collects error strings in source order. -/
def validateConfig (c : MergedMenuConfig) : List String :=
  (if c.layers < 1 ∨ c.layers > 3 then ["layers must be between 1 and 3"] else []) ++
  (if c.triggerType = "hover" ∨ c.triggerType = "click" then []
   else ["triggerType must be hover or click"]) ++
  (if c.dataSourceType ∈ ["static", "json", "sharepoint", "api"] then []
   else ["dataSource.type must be one of: static, json, sharepoint, api"]) ++
  (if c.hoverDelay < 0 then ["hoverDelay must be a positive number"] else []) ++
  (if c.closeDelay < 0 then ["closeDelay must be a positive number"] else [])

/-- The `MenuConfig` constructor (lines 396-399): merge, then validate; a
non-empty error list aborts construction (the JS `throw`), modelled as
`Except.error`, so no instance value is produced on failure. -/
def menuConfigNew (opts : MenuOptions) : Except (List String) MergedMenuConfig :=
  let c := mergeConfig opts
  let errors := validateConfig c
  if errors.length > 0 then .error errors else .ok c

/-! ## SharePoint flat-to-tree reconstruction (data-retrieval.js lines 264-302) -/

/-- A raw SharePoint list row as consumed by `transformSharePointData`:
`Id`, `Title`, `Url`, `ParentId`, `Order`, `OpenInNewTab`.  Absent fields are
`none`. -/
structure SPItem where
  Id : Nat
  Title : String
  Url : Option String
  ParentId : Option Nat
  Order : Option Int
  OpenInNewTab : Option Bool
deriving Repr, DecidableEq

/-- The record stored in `itemMap` before children are attached (lines 267-277). -/
structure Entry where
  id : Nat
  title : String
  url : String
  parentId : Option Nat
  order : Int
  openInNewTab : Bool
deriving Repr, DecidableEq

/-- Field normalisation of lines 268-276.  `item.Url || '#'` treats an empty
string as absent; `item.ParentId || null` collapses the falsy id `0` to null;
`item.Order || 0` and `item.OpenInNewTab || false` coincide with `getD`. -/
def toEntry (it : SPItem) : Entry :=
  { id := it.Id
    title := it.Title
    url := jsStrOr it.Url "#"
    parentId := match it.ParentId with
      | none => none
      | some p => if p = 0 then none else some p
    order := it.Order.getD 0
    openInNewTab := it.OpenInNewTab.getD false }

/-- The `itemMap` built by the first `forEach` (lines 266-277). -/
def itemMapPairs (items : List SPItem) : List (Nat × Entry) :=
  items.foldl (fun m it => jsMapSet m it.Id (toEntry it)) []

/-- The values of `itemMap` in `Map` iteration (insertion) order; the second
`forEach` (lines 280-287) walks exactly this list. -/
def entriesOf (items : List SPItem) : List Entry :=
  (itemMapPairs items).map (fun p => p.2)

/-- `itemMap.has(pid)`; every key of `itemMap` equals the `id` field of its
value, so `has` is membership of `pid` among the entry ids. -/
def resolvesB (m : List Entry) (pid : Nat) : Bool :=
  m.any (fun x => x.id = pid)

/-- The test of line 282: an entry is promoted to the roots when
`item.parentId` is falsy or `itemMap.has(item.parentId)` fails. -/
def rootB (m : List Entry) (e : Entry) : Bool :=
  match e.parentId with
  | none => true
  | some p => ! resolvesB m p

/-- `rootItems` in map-iteration order, before sorting. -/
def rootEntries (m : List Entry) : List Entry :=
  m.filter (fun e => rootB m e)

/-- The child sequence pushed onto `itemMap.get(pid).children`, in
map-iteration order, before sorting. -/
def childEntries (m : List Entry) (pid : Nat) : List Entry :=
  m.filter (fun e => e.parentId = some pid)

/-- The sort of lines 289-292: `items.sort((a, b) => a.order - b.order)`.
`Array.prototype.sort` is stable (ES2019), and a stable ascending sort by the
`order` key is the unique function that is sorted by `order` and preserves the
relative position of equal keys; `insertionSort` with `≤` on the key is that
function. -/
def sortByOrder (l : List Entry) : List Entry :=
  l.insertionSort (fun a b => a.order ≤ b.order)

/-- A node of the returned tree: the entry fields of lines 268-276 plus the
attached, recursively sorted children. -/
inductive MenuItem : Type where
  | mk (id : Nat) (title : String) (url : String) (parentId : Option Nat) (order : Int)
       (openInNewTab : Bool) (children : List MenuItem)
deriving Repr

def MenuItem.id : MenuItem → Nat
  | .mk i _ _ _ _ _ _ => i

def MenuItem.title : MenuItem → String
  | .mk _ t _ _ _ _ _ => t

def MenuItem.order : MenuItem → Int
  | .mk _ _ _ _ o _ _ => o

def MenuItem.children : MenuItem → List MenuItem
  | .mk _ _ _ _ _ _ cs => cs

/-- Materialisation of one attached node: children are looked up in the map,
sorted by `order` (lines 289-298) and materialised recursively.  The JS
recursion (`sortChildren`) is not fuel-limited; `fuel` bounds the recursion
depth of the model, and the development proves that any `fuel ≥ m.length`
yields the same tree, which is exactly the statement that the source recursion
depth is bounded by the number of records. -/
def buildItem (m : List Entry) : Nat → Entry → MenuItem
  | 0, e => .mk e.id e.title e.url e.parentId e.order e.openInNewTab []
  | fuel + 1, e =>
    .mk e.id e.title e.url e.parentId e.order e.openInNewTab
      ((sortByOrder (childEntries m e.id)).map (buildItem m fuel))

/-- `transformSharePointData` at an explicit recursion-depth bound. -/
def transformWithFuel (items : List SPItem) (fuel : Nat) : List MenuItem :=
  (sortByOrder (rootEntries (entriesOf items))).map (buildItem (entriesOf items) fuel)

/-- `DataRetrieval.transformSharePointData` (lines 264-302): index by id,
attach each record to its resolved parent or to the roots, sort every sibling
sequence by `order`, return the roots. -/
def transformSharePointData (items : List SPItem) : List MenuItem :=
  transformWithFuel items (entriesOf items).length

/-- Reconstruction errors reported by `transformSharePointData`.  The source
function has no error channel of any kind: it does not throw, does not invoke
a callback, and collects no failure list — its entire observable output is the
returned `rootItems` array.  The list of reported reconstruction errors is
therefore empty for every input. -/
def transformReconstructionErrors (_items : List SPItem) : List Nat := []

/-- Modelled collaborator (not repository code): `getSharePointData`
(data-retrieval.js lines 229-257) sends `$orderby=Order asc|desc` built from
`sharePoint.ascending`, so the rows handed to `transformSharePointData` arrive
from the server sorted by `Order` in the configured direction; that query
string is the only place the configured direction is used.  The server sort is
modelled as a stable sort on the `Order` field. -/
def serverOrdered (ascending : Bool) (items : List SPItem) : List SPItem :=
  if ascending then items.insertionSort (fun a b => a.Order.getD 0 ≤ b.Order.getD 0)
  else items.insertionSort (fun a b => b.Order.getD 0 ≤ a.Order.getD 0)

/-- The SharePoint fetch-and-transform pipeline as seen by the configuration:
server-side ordering in the configured direction followed by the client-side
transformation. -/
def sharePointPipeline (ascending : Bool) (items : List SPItem) : List MenuItem :=
  transformSharePointData (serverOrdered ascending items)

mutual
/-- All nodes of a subtree (the node itself first). -/
def flattenItem : MenuItem → List MenuItem
  | .mk i t u p o nt cs => .mk i t u p o nt cs :: flattenForest cs
/-- All nodes of a forest. -/
def flattenForest : List MenuItem → List MenuItem
  | [] => []
  | c :: cs => flattenItem c ++ flattenForest cs
end

/-- The ids of every node placed anywhere in the forest. -/
def forestIds (f : List MenuItem) : List Nat :=
  (flattenForest f).map MenuItem.id

/-- A chain of records from a root of the reconstruction down to a given
record: the head is the deepest record, each record's `parentId` resolves to
the id of the next one, and the last record satisfies the root test of
line 282.  These are exactly the ancestor chains the `sortChildren` recursion
walks. -/
inductive PathTo (m : List Entry) : List Entry → Prop where
  | root {e : Entry} : e ∈ m → rootB m e = true → PathTo m [e]
  | child {e p : Entry} {rest : List Entry} :
      PathTo m (p :: rest) → e ∈ m → e.parentId = some p.id → PathTo m (e :: p :: rest)

/-- The parent chain of `e` terminates at a root (rather than looping).  Since
every record has at most one parent (ids are unique), a flat collection is
acyclic precisely when every record's chain reaches a root: a chain that never
does so must revisit a record, i.e. lie on a cycle. -/
def ReachesRoot (m : List Entry) (e : Entry) : Prop :=
  ∃ rest, PathTo m (e :: rest)

/-- Acyclicity of a flat record collection, phrased through `ReachesRoot`. -/
def AcyclicCollection (items : List SPItem) : Prop :=
  ∀ e ∈ entriesOf items, ReachesRoot (entriesOf items) e

/-- Some record with id `i` lies in the subtree hanging below the chain
`base`: its own chain extends `base`. -/
def SubtreeReach (m : List Entry) (base : List Entry) (i : Nat) : Prop :=
  ∃ r x, PathTo m (r ++ base) ∧ (r ++ base).head? = some x ∧ x.id = i

/-! ## Tree normalisation (data-retrieval.js lines 309-346) -/

/-- The id of a normalised item: either the id carried by the record or the
`'menu_' + Math.random()...` value of `generateId` (line 352), whose concrete
random value is abstracted as `generated`. -/
inductive NormId where
  | given (s : String)
  | generated
deriving Repr, DecidableEq

/-- A raw record as consumed by `normalizeItem`: every consulted field is
optional (`none` = absent); `children` is `none` when the field is absent or
fails `Array.isArray`. -/
inductive RawItem : Type where
  | mk (id : Option String) (title : Option String) (label : Option String)
       (name : Option String) (url : Option String) (href : Option String)
       (link : Option String) (openInNewTab : Option Bool) (target : Option String)
       (icon : Option String) (cssClass : Option String) (className : Option String)
       (children : Option (List RawItem))

def RawItem.childrenOf : RawItem → Option (List RawItem)
  | .mk _ _ _ _ _ _ _ _ _ _ _ _ cs => cs

/-- The output shape of `normalizeItem` (lines 327-336). -/
inductive NormItem : Type where
  | mk (id : NormId) (title : String) (url : String) (openInNewTab : Bool)
       (icon : Option String) (cssClass : String) (level : Nat)
       (children : List NormItem)
deriving Repr

def NormItem.title : NormItem → String
  | .mk _ t _ _ _ _ _ _ => t

def NormItem.level : NormItem → Nat
  | .mk _ _ _ _ _ _ lv _ => lv

def NormItem.children : NormItem → List NormItem
  | .mk _ _ _ _ _ _ _ cs => cs

mutual
/-- `DataRetrieval.normalizeItem` (lines 324-346).  `maxLayers` is
`config.get('layers')`; `level` is 1-indexed.  Children are processed only
when `level < maxLayers` and the raw children are an array; otherwise the
normalised `children` stays `[]` — the function is total and reports nothing.
-/
def normalizeItem (maxLayers : Nat) (level : Nat) : RawItem → NormItem
  | .mk id title label name url href link openInNewTab target icon cssClass className children =>
    NormItem.mk
      (match id with
        | none => NormId.generated
        | some s => if s = "" then NormId.generated else NormId.given s)
      (jsStrChain [title, label, name] "Untitled")
      (jsStrChain [url, href, link] "#")
      (decide (openInNewTab = some true) || decide (target = some "_blank"))
      (jsStrOrNull icon)
      (jsStrChain [cssClass, className] "")
      level
      (match children with
        | some cs =>
          if level < maxLayers then normalizeChildren maxLayers (level + 1) cs else []
        | none => [])
/-- `item.children.map(child => this.normalizeItem(child, level + 1))`. -/
def normalizeChildren (maxLayers : Nat) (level : Nat) : List RawItem → List NormItem
  | [] => []
  | c :: cs => normalizeItem maxLayers level c :: normalizeChildren maxLayers level cs
end

/-- The possible JS values handed to `normalizeData` — an array of records or
any non-array value (`null`, `undefined`, a plain object, a string, a number,
a boolean). -/
inductive JsData where
  | arr (items : List RawItem)
  | nullV
  | undefinedV
  | objectV
  | strV (s : String)
  | numV (n : Int)
  | boolV (b : Bool)

/-- `DataRetrieval.normalizeData` (lines 309-316): a non-array input yields
`[]` (after a console warning); an array is mapped through `normalizeItem`
at level 1. -/
def normalizeData (maxLayers : Nat) : JsData → List NormItem
  | .arr items => normalizeChildren maxLayers 1 items
  | _ => []

/-! ## MenuEngine state machine (src/unnamed/part_000 lines 562-1237)

The DOM is abstracted away: submenus are identified by numbers, `aria-expanded`
on a trigger is identified with membership of its submenu in `openMenus`
(`openSubmenu` / `closeSubmenu` / `closeAllSubmenus` keep the two in lock
step), timers are pending (handle, action) pairs with fresh handles, and
listener registrations are recorded per target/handler pair. -/

inductive TriggerType where
  | hover
  | click
deriving Repr, DecidableEq

structure EngineConfig where
  triggerType : TriggerType := .hover
  closeOnOutsideClick : Bool := true
  closeOnEscape : Bool := true
  enableKeyboardNavigation : Bool := true
  mobileBreakpoint : Nat := 768
  hoverDelay : Nat := 150
  closeDelay : Nat := 300
deriving Repr, DecidableEq

/-- What a pending `setTimeout` callback will do when it fires. -/
inductive TimerAction where
  | openMenu (s : Nat)
  | closeMenu (s : Nat)
deriving Repr, DecidableEq

/-- The mutable instance state of `MenuEngine`.

`hoverTimeout` / `closeTimeout` are the two instance fields of the
constructor (lines 589-590): single handles shared by every submenu of the
instance, not per-submenu state.  `pendingTimers` holds the armed timers.

`docClickAttached`, `containerKeydownAttached` and `resizeAttached` are
booleans because `handleDocumentClick`, `handleKeyDown` and `handleResize` are
bound once in the constructor (lines 593-595), so re-registration of the same
(target, type, handler) triple is deduplicated by the DOM.  The Escape handler
(lines 1016-1020) is a fresh anonymous closure on every
`attachEventListeners` call, so those registrations accumulate and
`docEscapeCount` counts them. -/
structure EngineState where
  isInitialized : Bool := false
  isLoading : Bool := false
  pendingFetches : Nat := 0
  fetchCount : Nat := 0
  renderCount : Nat := 0
  openMenus : List Nat := []
  hoverTimeout : Option Nat := none
  closeTimeout : Option Nat := none
  pendingTimers : List (Nat × TimerAction) := []
  nextTimer : Nat := 0
  docClickAttached : Bool := false
  docEscapeCount : Nat := 0
  containerKeydownAttached : Bool := false
  resizeAttached : Bool := false
deriving Repr, DecidableEq

/-- The state right after the constructor ran. -/
def engineStart : EngineState := {}

/-- `clearTimeout(handle)`: cancels the pending timer with that handle, if
any; a stale or never-assigned handle is a no-op.  The instance field keeping
the handle is not nulled by the source, and is left untouched here too. -/
def clearTimer (σ : EngineState) (h : Option Nat) : EngineState :=
  match h with
  | none => σ
  | some t => { σ with pendingTimers := σ.pendingTimers.filter (fun p => p.1 ≠ t) }

/-- `setTimeout(action, delay)`: arms a fresh timer and returns its handle. -/
def armTimer (σ : EngineState) (act : TimerAction) : Nat × EngineState :=
  (σ.nextTimer,
   { σ with pendingTimers := σ.pendingTimers ++ [(σ.nextTimer, act)],
            nextTimer := σ.nextTimer + 1 })

/-- `openSubmenu` (lines 954-964): set `aria-expanded`, add the visibility
classes, add the submenu to the `openMenus` set. -/
def openSubmenu (σ : EngineState) (s : Nat) : EngineState :=
  { σ with openMenus := if s ∈ σ.openMenus then σ.openMenus else σ.openMenus ++ [s] }

/-- `closeSubmenu` (lines 971-981). -/
def closeSubmenu (σ : EngineState) (s : Nat) : EngineState :=
  { σ with openMenus := σ.openMenus.filter (fun x => x ≠ s) }

/-- `closeAllSubmenus` (lines 986-998): resets every expanded trigger and
visible submenu in the container and clears the set. -/
def closeAllSubmenus (σ : EngineState) : EngineState :=
  { σ with openMenus := [] }

/-- `attachEventListeners` (lines 1003-1025). -/
def attachEventListeners (cfg : EngineConfig) (σ : EngineState) : EngineState :=
  { σ with
    docClickAttached := σ.docClickAttached || cfg.closeOnOutsideClick
    containerKeydownAttached := σ.containerKeydownAttached || cfg.enableKeyboardNavigation
    docEscapeCount := σ.docEscapeCount + (if cfg.closeOnEscape then 1 else 0)
    resizeAttached := true }

/-- `destroy` (lines 1212-1226): removes the document click listener, the
container keydown listener and the window resize listener, clears the
container and the state.  It does not remove the anonymous document-level
Escape keydown listener (no reference to it was kept), and it does not call
`clearTimeout` on `hoverTimeout` / `closeTimeout`, so `docEscapeCount` and
`pendingTimers` are untouched — exactly as in the source. -/
def destroyEngine (σ : EngineState) : EngineState :=
  { σ with
    docClickAttached := false
    containerKeydownAttached := false
    resizeAttached := false
    openMenus := []
    isInitialized := false }

/-- The synchronous prefix of `init` (lines 602-612): the guard tests
`isInitialized` only — `isLoading` is set but never consulted — and a
non-initialised instance starts a data fetch (`getData`) and suspends. -/
def initStart (σ : EngineState) : EngineState :=
  if σ.isInitialized then σ
  else { σ with isLoading := true,
                fetchCount := σ.fetchCount + 1,
                pendingFetches := σ.pendingFetches + 1 }

/-- The continuation of `init` after its awaited fetch resolves
(lines 612-635): render, attach listeners, set `isInitialized`, clear the
loading flag. -/
def initComplete (cfg : EngineConfig) (σ : EngineState) : EngineState :=
  if σ.pendingFetches = 0 then σ
  else
    let σ₁ := attachEventListeners cfg
      { σ with pendingFetches := σ.pendingFetches - 1, renderCount := σ.renderCount + 1 }
    { σ₁ with isInitialized := true, isLoading := false }

/-- The `mouseenter` handler of `attachSubmenuHandlers` (lines 911-916),
attached only in hover mode: clear the (shared) close handle, arm the open
timer, store its handle in the (shared) `hoverTimeout` field. -/
def mouseenter (cfg : EngineConfig) (s : Nat) (σ : EngineState) : EngineState :=
  if cfg.triggerType = .hover then
    let σ₁ := clearTimer σ σ.closeTimeout
    let armed := armTimer σ₁ (.openMenu s)
    { armed.2 with hoverTimeout := some armed.1 }
  else σ

/-- The `mouseleave` handler (lines 919-924). -/
def mouseleave (cfg : EngineConfig) (s : Nat) (σ : EngineState) : EngineState :=
  if cfg.triggerType = .hover then
    let σ₁ := clearTimer σ σ.hoverTimeout
    let armed := armTimer σ₁ (.closeMenu s)
    { armed.2 with closeTimeout := some armed.1 }
  else σ

/-- Expiry of the timer with handle `t`: a cancelled or unknown handle does
nothing; otherwise the armed callback (`openSubmenu` / `closeSubmenu`) runs. -/
def fireTimer (t : Nat) (σ : EngineState) : EngineState :=
  match σ.pendingTimers.find? (fun p => p.1 = t) with
  | none => σ
  | some pending =>
    let σ₁ := { σ with pendingTimers := σ.pendingTimers.filter (fun p => p.1 ≠ t) }
    match pending.2 with
    | .openMenu s => openSubmenu σ₁ s
    | .closeMenu s => closeSubmenu σ₁ s

/-- The click handler (lines 928-946): open/close logic runs when the trigger
type is click or the viewport is at most the mobile breakpoint; an open target
is closed, otherwise everything is closed and the target opened. -/
def clickTrigger (cfg : EngineConfig) (width : Nat) (s : Nat) (σ : EngineState) : EngineState :=
  if cfg.triggerType = .click ∨ width ≤ cfg.mobileBreakpoint then
    if s ∈ σ.openMenus then closeSubmenu σ s
    else openSubmenu (closeAllSubmenus σ) s
  else σ

/-- An Escape keydown on the document (lines 1015-1021): each of the attached
anonymous listeners calls `closeAllSubmenus`; with none attached nothing
happens. -/
def escapeKey (σ : EngineState) : EngineState :=
  if σ.docEscapeCount > 0 then closeAllSubmenus σ else σ

/-- A click outside the container (lines 1031-1035). -/
def outsideClick (σ : EngineState) : EngineState :=
  if σ.docClickAttached then closeAllSubmenus σ else σ

/-- The externally visible events driving the instance. -/
inductive MenuEvent where
  | enter (s : Nat)
  | leave (s : Nat)
  | fire (t : Nat)
  | click (width : Nat) (s : Nat)
  | escape
  | outside
  | attach
  | destroyEv
  | initStartEv
  | initCompleteEv
deriving Repr, DecidableEq

def stepEngine (cfg : EngineConfig) (σ : EngineState) : MenuEvent → EngineState
  | .enter s => mouseenter cfg s σ
  | .leave s => mouseleave cfg s σ
  | .fire t => fireTimer t σ
  | .click w s => clickTrigger cfg w s σ
  | .escape => escapeKey σ
  | .outside => outsideClick σ
  | .attach => attachEventListeners cfg σ
  | .destroyEv => destroyEngine σ
  | .initStartEv => initStart σ
  | .initCompleteEv => initComplete cfg σ

def runEngine (cfg : EngineConfig) (σ : EngineState) (evs : List MenuEvent) : EngineState :=
  evs.foldl (stepEngine cfg) σ

/-- The timer with handle `t` is dead: it is not pending, and `t` is below the
fresh-handle counter, so no later `setTimeout` can ever re-issue it.  A dead
timer's callback can never run again. -/
def TimerDead (t : Nat) (σ : EngineState) : Prop :=
  (∀ a : TimerAction, (t, a) ∉ σ.pendingTimers) ∧ t < σ.nextTimer

/-! ## Basic lemmas about the JS map model -/

theorem jsMapGet_map_overwrite {κ α : Type} [DecidableEq κ] (m : List (κ × α)) (k : κ) (v : α)
    (hany : m.any (fun it => it.1 = k) = true) :
    jsMapGet (m.map (fun it => if it.1 = k then (k, v) else it)) k = some v := by
  induction m with
  | nil => simp at hany
  | cons a m ih =>
    by_cases hk : a.1 = k
    · simp [jsMapGet, hk]
    · simp only [List.any_cons, Bool.or_eq_true] at hany
      have hany2 : m.any (fun it => it.1 = k) = true := by
        rcases hany with h | h
        · exact absurd (of_decide_eq_true h) hk
        · exact h
      simp only [List.map_cons, if_neg hk]
      simp only [jsMapGet] at ih ⊢
      rw [List.find?_cons_of_neg _ (by simpa using hk)]
      exact ih hany2

theorem jsMapGet_append_fresh {κ α : Type} [DecidableEq κ] (m : List (κ × α)) (k : κ) (v : α)
    (hany : ¬ m.any (fun it => it.1 = k) = true) :
    jsMapGet (m ++ [(k, v)]) k = some v := by
  induction m with
  | nil => simp [jsMapGet]
  | cons a m ih =>
    simp only [List.any_cons, Bool.or_eq_true, not_or] at hany
    simp only [List.cons_append, jsMapGet] at ih ⊢
    rw [List.find?_cons_of_neg _ (by simpa using hany.1)]
    exact ih (by simpa using hany.2)

theorem jsMapGet_set_self {κ α : Type} [DecidableEq κ] (m : List (κ × α)) (k : κ) (v : α) :
    jsMapGet (jsMapSet m k v) k = some v := by
  unfold jsMapSet
  split
  · exact jsMapGet_map_overwrite m k v (by assumption)
  · exact jsMapGet_append_fresh m k v (by assumption)

theorem jsMapGet_delete_self {κ α : Type} [DecidableEq κ] (m : List (κ × α)) (k : κ) :
    jsMapGet (jsMapDelete m k) k = none := by
  have h : List.find? (fun it => decide (it.1 = k)) (jsMapDelete m k) = none := by
    rw [List.find?_eq_none]
    intro x hx
    simp only [jsMapDelete] at hx
    have hmem := List.of_mem_filter hx
    simpa using hmem
  simp [jsMapGet, h]

/-! ## Claim C6 : TTL cache get/set round trip -/

/-- C6.  For every cache state, key, payload and TTL: a `get` performed after
the `set`, at a time strictly before the entry's expiry instant, returns the
stored payload; a `get` performed strictly after the expiry instant returns
`null` and evicts the entry from the cache (the following lookup misses), so a
stale payload is never returned. -/
theorem claim6_cache_ttl_roundtrip {α : Type} (c : DataCache α) (now t : Nat) (key : String)
    (data : α) (duration : Option Nat) :
    (t < now + c.effectiveDuration duration →
      ((c.set now key data duration).get t key).1 = some data) ∧
    (now + c.effectiveDuration duration < t →
      ((c.set now key data duration).get t key).1 = none ∧
      jsMapGet ((c.set now key data duration).get t key).2.cache key = none) := by
  have hget : jsMapGet (c.set now key data duration).cache key
      = some { data := data, expiry := now + c.effectiveDuration duration } := by
    simpa [DataCache.set] using
      jsMapGet_set_self c.cache key
        { data := data, expiry := now + c.effectiveDuration duration }
  constructor
  · intro hlt
    have hnot : ¬ t > now + c.effectiveDuration duration := by omega
    simp [DataCache.get, hget, hnot]
  · intro hgt
    have : t > now + c.effectiveDuration duration := hgt
    constructor
    · simp [DataCache.get, hget, this]
    · simp only [DataCache.get, hget]
      rw [if_pos this]
      simpa using jsMapGet_delete_self (c.set now key data duration).cache key

/-- Witness for C6 at a concrete cache, key, payload and TTL. -/
theorem claim6_witness :
    ((((DataCache.new Nat 300000).set 0 "k" 42 (some 100)).get 5 "k").1 = some 42) ∧
    ((((DataCache.new Nat 300000).set 0 "k" 42 (some 100)).get 200 "k").1 = none) :=
  ⟨(claim6_cache_ttl_roundtrip (DataCache.new Nat 300000) 0 5 "k" 42 (some 100)).1 (by decide),
   ((claim6_cache_ttl_roundtrip (DataCache.new Nat 300000) 0 200 "k" 42 (some 100)).2 (by decide)).1⟩

/-! ## Claim C8 : layers validation at construction -/

/-- C8.  For every configuration whose other validated options are valid,
construction fails exactly when the merged `layers` value lies outside 1–3:
for `layers` in 1–3 the constructor returns the merged configuration, and for
`layers` outside 1–3 it returns the validation error (the JS `throw`), so no
instance is produced. -/
theorem claim8_layers_validation (opts : MenuOptions)
    (ht : (mergeConfig opts).triggerType = "hover" ∨ (mergeConfig opts).triggerType = "click")
    (hd : (mergeConfig opts).dataSourceType ∈ ["static", "json", "sharepoint", "api"])
    (hh : 0 ≤ (mergeConfig opts).hoverDelay) (hc : 0 ≤ (mergeConfig opts).closeDelay) :
    (1 ≤ (mergeConfig opts).layers ∧ (mergeConfig opts).layers ≤ 3 →
      menuConfigNew opts = .ok (mergeConfig opts)) ∧
    ((mergeConfig opts).layers < 1 ∨ 3 < (mergeConfig opts).layers →
      menuConfigNew opts = .error ["layers must be between 1 and 3"]) := by
  have hh2 : ¬ (mergeConfig opts).hoverDelay < 0 := not_lt.mpr hh
  have hc2 : ¬ (mergeConfig opts).closeDelay < 0 := not_lt.mpr hc
  constructor
  · intro h
    have hl : ¬ ((mergeConfig opts).layers < 1 ∨ (mergeConfig opts).layers > 3) := by omega
    simp [menuConfigNew, validateConfig, hl, ht, hd, hh2, hc2]
  · intro h
    have hl : (mergeConfig opts).layers < 1 ∨ (mergeConfig opts).layers > 3 := by omega
    simp [menuConfigNew, validateConfig, hl, ht, hd, hh2, hc2]

/-- Witness for C8: layers 2 constructs, layers 5 fails with the validation
error. -/
theorem claim8_witness :
    menuConfigNew { layers := some 2 } = .ok (mergeConfig { layers := some 2 }) ∧
    menuConfigNew { layers := some 5 } = .error ["layers must be between 1 and 3"] :=
  ⟨(claim8_layers_validation { layers := some 2 } (by decide) (by decide) (by decide)
      (by decide)).1 (by decide),
   (claim8_layers_validation { layers := some 5 } (by decide) (by decide) (by decide)
      (by decide)).2 (by decide)⟩

/-! ## Claims C7 and C10 : normalisation -/

theorem normalizeChildren_eq_map (maxLayers level : Nat) (cs : List RawItem) :
    normalizeChildren maxLayers level cs = cs.map (normalizeItem maxLayers level) := by
  induction cs with
  | nil => simp [normalizeChildren]
  | cons c cs ih => simp [normalizeChildren, ih]

theorem normalizeItem_children_stop (maxLayers level : Nat) (item : RawItem)
    (h : maxLayers ≤ level) :
    (normalizeItem maxLayers level item).children = [] := by
  have hlt : ¬ level < maxLayers := not_lt.mpr h
  cases item with
  | mk id title label name url href link openInNewTab target icon cssClass className children =>
    cases children with
    | none => simp [normalizeItem, NormItem.children]
    | some cs => simp [normalizeItem, NormItem.children, hlt]

theorem normalizeItem_children_recurse (maxLayers level : Nat) (item : RawItem)
    (cs : List RawItem) (hcs : item.childrenOf = some cs) (hlt : level < maxLayers) :
    (normalizeItem maxLayers level item).children
      = cs.map (normalizeItem maxLayers (level + 1)) := by
  cases item with
  | mk id title label name url href link openInNewTab target icon cssClass className children =>
    simp only [RawItem.childrenOf] at hcs
    subst hcs
    simp [normalizeItem, NormItem.children, hlt, normalizeChildren_eq_map]

/-- C7.  Normalisation recurses into a record's children only while the
current depth is strictly below the configured maximum: at any level at or
beyond `maxLayers` the normalised child sequence is `[]`.  In particular with
`maxLayers = 2` a record whose raw children sit at depth 3 yields, on its
depth-2 parent, an empty child sequence, while the depth-2 records themselves
are normalised normally; `normalizeItem` is total, so the truncation reports
no error. -/
theorem claim7_depth_truncation (maxLayers level : Nat) (item : RawItem) :
    (maxLayers ≤ level → (normalizeItem maxLayers level item).children = []) ∧
    (∀ cs : List RawItem, item.childrenOf = some cs →
      (normalizeItem 2 1 item).children = cs.map (normalizeItem 2 2) ∧
      ∀ c ∈ (normalizeItem 2 1 item).children, c.children = []) := by
  refine ⟨fun h => normalizeItem_children_stop _ _ _ h, fun cs hcs => ?_⟩
  have h1 : (normalizeItem 2 1 item).children = cs.map (normalizeItem 2 2) :=
    normalizeItem_children_recurse 2 1 item cs hcs (by decide)
  refine ⟨h1, fun c hc => ?_⟩
  rw [h1] at hc
  obtain ⟨r, _, rfl⟩ := List.mem_map.mp hc
  exact normalizeItem_children_stop 2 2 r (by decide)

/-- Witness for C7: a 3-level raw record under `maxLayers = 2`; the depth-2
child is normalised, its grandchild is dropped. -/
theorem claim7_witness :
    (normalizeItem 2 2 (RawItem.mk none (some "child") none none none none none none none none
        none none (some [RawItem.mk none (some "grandchild") none none none none none none none
        none none none none]))).children = [] ∧
    ((normalizeItem 2 1 (RawItem.mk none (some "top") none none none none none none none none
        none none (some [RawItem.mk none (some "child") none none none none none none none none
        none none (some [RawItem.mk none (some "grandchild") none none none none none none none
        none none none none])]))).children
      = [RawItem.mk none (some "child") none none none none none none none none
        none none (some [RawItem.mk none (some "grandchild") none none none none none none none
        none none none none])].map (normalizeItem 2 2) ∧
     ∀ c ∈ (normalizeItem 2 1 (RawItem.mk none (some "top") none none none none none none none
        none none none (some [RawItem.mk none (some "child") none none none none none none none
        none none none (some [RawItem.mk none (some "grandchild") none none none none none none
        none none none none none])]))).children, c.children = []) :=
  ⟨(claim7_depth_truncation 2 2 _).1 (by decide),
   (claim7_depth_truncation 2 1 _).2 _ rfl⟩

/-- C10.  Every non-array input to `normalizeData` — null, undefined, an
object, a string, a number, a boolean — yields the empty array; the function
is total, so a malformed payload produces an empty menu rather than a
failure. -/
theorem claim10_normalize_non_array (maxLayers : Nat) (d : JsData)
    (h : ∀ items : List RawItem, d ≠ JsData.arr items) :
    normalizeData maxLayers d = [] := by
  cases d with
  | arr items => exact absurd rfl (h items)
  | nullV => rfl
  | undefinedV => rfl
  | objectV => rfl
  | strV s => rfl
  | numV n => rfl
  | boolV b => rfl

/-- Witness for C10 at two concrete non-array inputs. -/
theorem claim10_witness :
    normalizeData 3 JsData.nullV = [] ∧ normalizeData 3 (JsData.strV "oops") = [] :=
  ⟨claim10_normalize_non_array 3 JsData.nullV (fun _ h => JsData.noConfusion h),
   claim10_normalize_non_array 3 (JsData.strV "oops") (fun _ h => JsData.noConfusion h)⟩

/-! ## Claim C3 : destroy leaks the Escape listener and the pending timers

`destroy()` (lines 1212-1226) removes the three bound handlers but cannot
remove the anonymous Escape keydown listener added at line 1016 (no reference
to that closure was kept), and it never calls `clearTimeout`, so a pending
hover timer stays armed.  The run below is a real interaction: construct,
`attachEventListeners`, pointer-enter on a submenu trigger, `destroy()`
before `hoverDelay` elapses. -/

/-- C3 is a code bug.  After `destroy()` on an instance with the default
configuration that attached its listeners and has one hover-open timer armed:
the document-level Escape keydown listener is still attached
(`docEscapeCount = 1`) and the hover-open timer is still pending, while the
three bound listeners (document click, container keydown, window resize) were
removed.  The claim — zero timers armed and zero listeners attached after
`destroy()` — is exactly what the spec demands and the code fails to do. -/
theorem claim3_destroy_leaks :
    (runEngine {} engineStart [.attach, .enter 0, .destroyEv]).docEscapeCount = 1 ∧
    (runEngine {} engineStart [.attach, .enter 0, .destroyEv]).pendingTimers
      = [(0, TimerAction.openMenu 0)] ∧
    (runEngine {} engineStart [.attach, .enter 0, .destroyEv]).hoverTimeout = some 0 ∧
    (runEngine {} engineStart [.attach, .enter 0, .destroyEv]).docClickAttached = false ∧
    (runEngine {} engineStart [.attach, .enter 0, .destroyEv]).containerKeydownAttached = false ∧
    (runEngine {} engineStart [.attach, .enter 0, .destroyEv]).resizeAttached = false := by
  decide

/-! ## Claim C9 : re-entrant init -/

/-- Counterexample to C9.  The `init` guard (line 603) tests `isInitialized`,
which only becomes true after the awaited fetch resolves; `isLoading` is never
consulted.  A second `init()` issued while the first fetch is still pending
therefore starts a second full fetch (`fetchCount = 2`) instead of being a
no-op (which would leave `fetchCount = 1`). -/
theorem claim9_counterexample :
    (runEngine {} engineStart [.initStartEv]).fetchCount = 1 ∧
    (runEngine {} engineStart [.initStartEv, .initStartEv]).fetchCount = 2 ∧
    runEngine {} engineStart [.initStartEv, .initStartEv]
      ≠ runEngine {} engineStart [.initStartEv] := by
  decide

/-- C9 amended.  The re-entrancy guard of `init` protects only against calls
made after a previous `init` has completed (`isInitialized = true`): such a
call performs no fetch, no render and no state change — it is the logged
no-op (`console.warn`).  A call while a previous `init` is merely pending
starts a duplicate cycle (see the counterexample). -/
theorem claim9_amended_reinit_noop (σ : EngineState) (h : σ.isInitialized = true) :
    initStart σ = σ := by
  simp [initStart, h]

/-- Witness for C9: after one completed init cycle, a further `init()` call
leaves the state untouched. -/
theorem claim9_witness :
    initStart (runEngine {} engineStart [.initStartEv, .initCompleteEv])
      = runEngine {} engineStart [.initStartEv, .initCompleteEv] :=
  claim9_amended_reinit_noop _ (by decide)

/-! ## Claim C5 : click activation policy -/

/-- C5 amended.  In every state (reachable or not), when the activation logic
runs (click trigger type, or viewport at most the mobile breakpoint):
activating a trigger whose submenu is not open first forces every open
submenu in the entire tree closed and then opens the target, leaving exactly
the target open; activating a trigger whose submenu is open closes just that
submenu and leaves every other open submenu open.  Consequently the
"at most one open submenu path after every activation" consequence claimed by
the spec holds for opening activations but not for closing ones (see the
counterexample). -/
theorem claim5_amended_activation (cfg : EngineConfig) (σ : EngineState) (width s : Nat)
    (hact : cfg.triggerType = .click ∨ width ≤ cfg.mobileBreakpoint) :
    (s ∉ σ.openMenus → (clickTrigger cfg width s σ).openMenus = [s]) ∧
    (s ∈ σ.openMenus →
      (clickTrigger cfg width s σ).openMenus = σ.openMenus.filter (fun x => x ≠ s)) := by
  constructor
  · intro hno
    unfold clickTrigger
    rw [if_pos hact, if_neg hno]
    simp [openSubmenu, closeAllSubmenus]
  · intro hyes
    unfold clickTrigger
    rw [if_pos hact, if_pos hyes]
    simp [closeSubmenu]

/-- Witness for C5 at a concrete state with submenus 0 and 2 open: activating
the closed submenu 1 leaves exactly [1] open; activating the open submenu 0
leaves [2] open. -/
theorem claim5_witness :
    (clickTrigger {} 400 1 { openMenus := [0, 2] }).openMenus = [1] ∧
    (clickTrigger {} 400 0 { openMenus := [0, 2] }).openMenus = [2] := by
  constructor
  · exact (claim5_amended_activation {} { openMenus := [0, 2] } 400 1 (by decide)).1 (by decide)
  · have h := (claim5_amended_activation {} { openMenus := [0, 2] } 400 0 (by decide)).2 (by decide)
    simpa using h

/-- Counterexample to C5 as stated.  A hover-mode instance at mobile width
(default configuration, viewport 400 ≤ 768): moving the pointer across the
three sibling top-level triggers 0, 1, 2 opens all three — each `mouseenter`
clears the shared close handle armed by the previous `mouseleave`
(lines 912, 921), so nothing ever closes — and then clicking the open
trigger 1 (an activation) closes only submenu 1.  After that activation two
sibling submenus, 0 and 2, remain open: more than one open submenu path
system-wide.  The trace is real-time feasible: each `fire` is the hover-open
timer armed `hoverDelay` earlier by the matching `enter`. -/
theorem claim5_counterexample :
    (runEngine {} engineStart
        [.enter 0, .fire 0, .leave 0, .enter 1, .fire 2, .leave 1, .enter 2, .fire 4]).openMenus
      = [0, 1, 2] ∧
    (runEngine {} engineStart
        [.enter 0, .fire 0, .leave 0, .enter 1, .fire 2, .leave 1, .enter 2, .fire 4,
         .click 400 1]).openMenus
      = [0, 2] := by
  decide

/-! ## Claim C4 : hover-enter / hover-leave timing -/

theorem clearTimer_nextTimer (σ : EngineState) (h : Option Nat) :
    (clearTimer σ h).nextTimer = σ.nextTimer := by
  cases h <;> rfl

theorem clearTimer_hoverTimeout (σ : EngineState) (h : Option Nat) :
    (clearTimer σ h).hoverTimeout = σ.hoverTimeout := by
  cases h <;> rfl

theorem clearTimer_pending_mono (σ : EngineState) (h : Option Nat) (p : Nat × TimerAction) :
    p ∈ (clearTimer σ h).pendingTimers → p ∈ σ.pendingTimers := by
  cases h with
  | none => exact id
  | some u => exact fun hp => List.mem_of_mem_filter hp

theorem fireTimer_hoverTimeout (t : Nat) (σ : EngineState) :
    (fireTimer t σ).hoverTimeout = σ.hoverTimeout := by
  unfold fireTimer
  cases hf : σ.pendingTimers.find? (fun p => p.1 = t) with
  | none => rfl
  | some p =>
    rcases p with ⟨u, act⟩
    cases act <;> rfl

theorem fireTimer_nextTimer (t : Nat) (σ : EngineState) :
    (fireTimer t σ).nextTimer = σ.nextTimer := by
  unfold fireTimer
  cases hf : σ.pendingTimers.find? (fun p => p.1 = t) with
  | none => rfl
  | some p =>
    rcases p with ⟨u, act⟩
    cases act <;> rfl

theorem fireTimer_pending_mono (t : Nat) (σ : EngineState) (p : Nat × TimerAction) :
    p ∈ (fireTimer t σ).pendingTimers → p ∈ σ.pendingTimers := by
  unfold fireTimer
  cases hf : σ.pendingTimers.find? (fun q => q.1 = t) with
  | none => exact id
  | some q =>
    rcases q with ⟨u, act⟩
    cases act <;> exact fun hp => List.mem_of_mem_filter hp

/-- A dead timer stays dead and the fresh-handle counter never decreases,
whatever event is processed. -/
theorem timerDead_step (cfg : EngineConfig) (σ : EngineState) (ev : MenuEvent) (t : Nat)
    (hd : TimerDead t σ) : TimerDead t (stepEngine cfg σ ev) := by
  obtain ⟨hdead, hlt⟩ := hd
  cases ev with
  | enter s =>
    simp only [stepEngine, mouseenter]
    split
    · refine ⟨fun a hmem => ?_, ?_⟩
      · simp only [armTimer, List.mem_append, List.mem_singleton] at hmem
        rcases hmem with hmem | hmem
        · exact hdead a (clearTimer_pending_mono σ σ.closeTimeout _ hmem)
        · have : t = (clearTimer σ σ.closeTimeout).nextTimer := congrArg Prod.fst hmem
          rw [clearTimer_nextTimer] at this
          omega
      · simp only [armTimer]
        rw [clearTimer_nextTimer]
        omega
    · exact ⟨hdead, hlt⟩
  | leave s =>
    simp only [stepEngine, mouseleave]
    split
    · refine ⟨fun a hmem => ?_, ?_⟩
      · simp only [armTimer, List.mem_append, List.mem_singleton] at hmem
        rcases hmem with hmem | hmem
        · exact hdead a (clearTimer_pending_mono σ σ.hoverTimeout _ hmem)
        · have : t = (clearTimer σ σ.hoverTimeout).nextTimer := congrArg Prod.fst hmem
          rw [clearTimer_nextTimer] at this
          omega
      · simp only [armTimer]
        rw [clearTimer_nextTimer]
        omega
    · exact ⟨hdead, hlt⟩
  | fire u =>
    simp only [stepEngine]
    refine ⟨fun a hmem => hdead a (fireTimer_pending_mono u σ _ hmem), ?_⟩
    rw [fireTimer_nextTimer]
    exact hlt
  | click w s =>
    simp only [stepEngine, clickTrigger]
    split
    · split
      · exact ⟨hdead, hlt⟩
      · exact ⟨hdead, hlt⟩
    · exact ⟨hdead, hlt⟩
  | escape =>
    simp only [stepEngine, escapeKey]
    split
    · exact ⟨hdead, hlt⟩
    · exact ⟨hdead, hlt⟩
  | outside =>
    simp only [stepEngine, outsideClick]
    split
    · exact ⟨hdead, hlt⟩
    · exact ⟨hdead, hlt⟩
  | attach => exact ⟨hdead, hlt⟩
  | destroyEv => exact ⟨hdead, hlt⟩
  | initStartEv =>
    simp only [stepEngine, initStart]
    split
    · exact ⟨hdead, hlt⟩
    · exact ⟨hdead, hlt⟩
  | initCompleteEv =>
    simp only [stepEngine, initComplete]
    split
    · exact ⟨hdead, hlt⟩
    · exact ⟨hdead, hlt⟩

theorem timerDead_run (cfg : EngineConfig) (σ : EngineState) (evs : List MenuEvent) (t : Nat)
    (hd : TimerDead t σ) : TimerDead t (runEngine cfg σ evs) := by
  induction evs generalizing σ with
  | nil => exact hd
  | cons ev evs ih => exact ih _ (timerDead_step cfg σ ev t hd)

/-- Firing a dead timer is a no-op: its callback never runs. -/
theorem fireTimer_of_dead (t : Nat) (σ : EngineState)
    (hdead : ∀ a : TimerAction, (t, a) ∉ σ.pendingTimers) : fireTimer t σ = σ := by
  have hfind : σ.pendingTimers.find? (fun p => p.1 = t) = none := by
    rw [List.find?_eq_none]
    intro p hp hpt
    have h1 : p.1 = t := of_decide_eq_true hpt
    have : (t, p.2) ∈ σ.pendingTimers := by
      have : p = (t, p.2) := by
        cases p
        simp_all
      rw [← this]
      exact hp
    exact hdead p.2 this
  simp [fireTimer, hfind]

/-- Events other than a pointer-enter never reassign the shared
`hoverTimeout` handle field. -/
theorem stepEngine_hoverTimeout_of_not_enter (cfg : EngineConfig) (σ : EngineState)
    (ev : MenuEvent) (h : ∀ s, ev ≠ .enter s) :
    (stepEngine cfg σ ev).hoverTimeout = σ.hoverTimeout := by
  cases ev with
  | enter s => exact absurd rfl (h s)
  | leave s =>
    simp only [stepEngine, mouseleave]
    split
    · simp only [armTimer]
      rw [clearTimer_hoverTimeout]
    · rfl
  | fire u => exact fireTimer_hoverTimeout u σ
  | click w s =>
    simp only [stepEngine, clickTrigger]
    split
    · split <;> rfl
    · rfl
  | escape =>
    simp only [stepEngine, escapeKey]
    split <;> rfl
  | outside =>
    simp only [stepEngine, outsideClick]
    split <;> rfl
  | attach => rfl
  | destroyEv => rfl
  | initStartEv =>
    simp only [stepEngine, initStart]
    split <;> rfl
  | initCompleteEv =>
    simp only [stepEngine, initComplete]
    split <;> rfl

theorem runEngine_hoverTimeout_of_no_enter (cfg : EngineConfig) (σ : EngineState)
    (evs : List MenuEvent) (h : ∀ ev ∈ evs, ∀ s, ev ≠ .enter s) :
    (runEngine cfg σ evs).hoverTimeout = σ.hoverTimeout := by
  induction evs generalizing σ with
  | nil => rfl
  | cons ev evs ih =>
    have h1 := stepEngine_hoverTimeout_of_not_enter cfg σ ev (h ev (by simp))
    have h2 := ih (stepEngine cfg σ ev) (fun e he s => h e (by simp [he]) s)
    rw [runEngine] at h2 ⊢
    simp only [List.foldl_cons]
    rw [h2, h1]

theorem stepEngine_nextTimer_le (cfg : EngineConfig) (σ : EngineState) (ev : MenuEvent) :
    σ.nextTimer ≤ (stepEngine cfg σ ev).nextTimer := by
  cases ev with
  | enter s =>
    simp only [stepEngine, mouseenter]
    split
    · simp only [armTimer]
      rw [clearTimer_nextTimer]
      omega
    · exact le_refl _
  | leave s =>
    simp only [stepEngine, mouseleave]
    split
    · simp only [armTimer]
      rw [clearTimer_nextTimer]
      omega
    · exact le_refl _
  | fire u => exact le_of_eq (fireTimer_nextTimer u σ).symm
  | click w s =>
    simp only [stepEngine, clickTrigger]
    split
    · split <;> exact le_refl _
    · exact le_refl _
  | escape =>
    simp only [stepEngine, escapeKey]
    split <;> exact le_refl _
  | outside =>
    simp only [stepEngine, outsideClick]
    split <;> exact le_refl _
  | attach => exact le_refl _
  | destroyEv => exact le_refl _
  | initStartEv =>
    simp only [stepEngine, initStart]
    split <;> exact le_refl _
  | initCompleteEv =>
    simp only [stepEngine, initComplete]
    split <;> exact le_refl _

theorem runEngine_nextTimer_le (cfg : EngineConfig) (σ : EngineState) (evs : List MenuEvent) :
    σ.nextTimer ≤ (runEngine cfg σ evs).nextTimer := by
  induction evs generalizing σ with
  | nil => exact le_refl _
  | cons ev evs ih =>
    exact le_trans (stepEngine_nextTimer_le cfg σ ev) (ih (stepEngine cfg σ ev))

/-- C4 amended.  The hover-open and hover-close handles are two fields of the
controller instance (`this.hoverTimeout`, `this.closeTimeout`), shared by all
submenus — not one pair per submenu as the claim asserts.  What does hold: in
hover mode, after a pointer-enter on submenu `s` arms the open timer `t`, if
no further pointer-enter (on any submenu) overwrites the shared handle before
the pointer-leave, and the leave happens before the timer fires (i.e. before
`hoverDelay` elapses), then the leave cancels `t`; `t` is dead from then on,
stays dead under every later event, and firing it never changes the state —
so that enter can never transition submenu `s` to open. -/
theorem claim4_amended_hover_cancel (cfg : EngineConfig) (σ : EngineState) (s s2 : Nat)
    (mid post : List MenuEvent) (hmode : cfg.triggerType = .hover)
    (hmid : ∀ ev ∈ mid, (∀ s3, ev ≠ .enter s3) ∧ ev ≠ .fire σ.nextTimer) :
    TimerDead σ.nextTimer
      (mouseleave cfg s2 (runEngine cfg (mouseenter cfg s σ) mid)) ∧
    TimerDead σ.nextTimer
      (runEngine cfg (mouseleave cfg s2 (runEngine cfg (mouseenter cfg s σ) mid)) post) ∧
    fireTimer σ.nextTimer
        (runEngine cfg (mouseleave cfg s2 (runEngine cfg (mouseenter cfg s σ) mid)) post)
      = runEngine cfg (mouseleave cfg s2 (runEngine cfg (mouseenter cfg s σ) mid)) post := by
  set t := σ.nextTimer with ht
  have henter : (mouseenter cfg s σ).hoverTimeout = some t := by
    simp only [mouseenter, hmode]
    simp [armTimer, clearTimer_nextTimer]
  have hmid2 : (runEngine cfg (mouseenter cfg s σ) mid).hoverTimeout = some t := by
    rw [runEngine_hoverTimeout_of_no_enter cfg _ mid (fun ev he s3 => (hmid ev he).1 s3)]
    exact henter
  have hnext1 : t < (mouseenter cfg s σ).nextTimer := by
    simp only [mouseenter, hmode]
    simp [armTimer, clearTimer_nextTimer]
  have hnext2 : t < (runEngine cfg (mouseenter cfg s σ) mid).nextTimer :=
    lt_of_lt_of_le hnext1 (runEngine_nextTimer_le cfg _ mid)
  have hdead1 : TimerDead t (mouseleave cfg s2 (runEngine cfg (mouseenter cfg s σ) mid)) := by
    set σm := runEngine cfg (mouseenter cfg s σ) mid with hσm
    constructor
    · intro a hmem
      simp only [mouseleave, hmode, if_pos] at hmem
      simp only [armTimer, List.mem_append, List.mem_singleton] at hmem
      rcases hmem with hmem | hmem
      · rw [hmid2] at hmem
        simp only [clearTimer] at hmem
        have := List.of_mem_filter hmem
        simp at this
      · have h1 : t = (clearTimer σm σm.hoverTimeout).nextTimer := congrArg Prod.fst hmem
        rw [clearTimer_nextTimer] at h1
        omega
    · simp only [mouseleave, hmode, if_pos, armTimer]
      rw [clearTimer_nextTimer]
      omega
  have hdead2 : TimerDead t
      (runEngine cfg (mouseleave cfg s2 (runEngine cfg (mouseenter cfg s σ) mid)) post) :=
    timerDead_run cfg _ post t hdead1
  exact ⟨hdead1, hdead2, fireTimer_of_dead t _ hdead2.1⟩

/-- Witness for C4 at a concrete run: enter submenu 0, an unrelated leave of
submenu 1 and a stale fire in between, leave submenu 0, then attempt to fire
the cancelled open timer after an outside click. -/
theorem claim4_witness :
    TimerDead 0 (mouseleave {} 0 (runEngine {} (mouseenter {} 0 engineStart)
        [.leave 1, .fire 7])) ∧
    TimerDead 0 (runEngine {} (mouseleave {} 0 (runEngine {} (mouseenter {} 0 engineStart)
        [.leave 1, .fire 7])) [.outside]) ∧
    fireTimer 0 (runEngine {} (mouseleave {} 0 (runEngine {} (mouseenter {} 0 engineStart)
        [.leave 1, .fire 7])) [.outside])
      = runEngine {} (mouseleave {} 0 (runEngine {} (mouseenter {} 0 engineStart)
        [.leave 1, .fire 7])) [.outside] :=
  claim4_amended_hover_cancel {} engineStart 0 0 [.leave 1, .fire 7] [.outside] rfl
    (fun ev he => by
      rcases List.mem_cons.mp he with rfl | he2
      · exact ⟨fun s3 h => MenuEvent.noConfusion h, by decide⟩
      rcases List.mem_cons.mp he2 with rfl | he3
      · exact ⟨fun s3 h => MenuEvent.noConfusion h, by decide⟩
      cases he3)

/-- Counterexample to C4 as stated.  Submenu 1's trigger item is nested
inside submenu 0's trigger item (layers = 3).  The pointer enters item 0 at
time 0 (arming open-timer 0 for submenu 0 with deadline `hoverDelay`), slides
into the nested item 1 (arming open-timer 1 and overwriting the shared
`hoverTimeout` handle — timer 0 stays armed but unreachable), slides back out
of item 1 (cancelling timer 1), and leaves item 0 well before `hoverDelay`
has elapsed (the leave clears the stale shared handle, not timer 0).  When
timer 0 then fires at `hoverDelay`, submenu 0 transitions to open — even
though the pointer entered and left item 0 before `hoverDelay` elapsed.  The
per-submenu-timer justification in the claim is false: the two handles are
per instance. -/
theorem claim4_counterexample :
    (runEngine {} engineStart [.enter 0, .enter 1, .leave 1, .leave 0, .fire 0]).openMenus
      = [0] ∧
    (runEngine {} engineStart [.enter 0, .enter 1, .leave 1, .leave 0]).pendingTimers.filter
        (fun p => p.1 = 0)
      = [(0, TimerAction.openMenu 0)] := by
  decide

/-! ## Claims C1 and C2 : flat-to-tree reconstruction

Lemmas about the stable ascending sibling sort. -/

instance : IsTotal Entry (fun a b => a.order ≤ b.order) :=
  ⟨fun a b => Int.le_total a.order b.order⟩

instance : IsTrans Entry (fun a b => a.order ≤ b.order) :=
  ⟨fun _ _ _ h₁ h₂ => le_trans h₁ h₂⟩

theorem sortByOrder_sorted (l : List Entry) :
    (sortByOrder l).Sorted (fun a b => a.order ≤ b.order) :=
  List.sorted_insertionSort _ l

theorem sortByOrder_perm (l : List Entry) : List.Perm (sortByOrder l) l :=
  List.perm_insertionSort _ l

theorem mem_sortByOrder {l : List Entry} {e : Entry} : e ∈ sortByOrder l ↔ e ∈ l :=
  List.mem_insertionSort _

/-- Stability of `orderedInsert` at the inserted element's key: every element
the insertion walks past has a strictly smaller key, so it is invisible to the
filter at that key. -/
theorem orderedInsert_filter_key (a : Entry) (l : List Entry) (k : Int) :
    (l.orderedInsert (fun a b => a.order ≤ b.order) a).filter (fun e => e.order = k)
      = if a.order = k then a :: l.filter (fun e => e.order = k)
        else l.filter (fun e => e.order = k) := by
  induction l with
  | nil =>
    by_cases hk : a.order = k <;> simp [List.orderedInsert, List.filter, hk]
  | cons b l ih =>
    show (if a.order ≤ b.order then a :: b :: l
        else b :: l.orderedInsert (fun a b => a.order ≤ b.order) a).filter
          (fun e => e.order = k) = _
    by_cases hab : a.order ≤ b.order
    · rw [if_pos hab]
      by_cases hk : a.order = k <;> simp [List.filter_cons, hk]
    · rw [if_neg hab]
      have hlt : b.order < a.order := lt_of_not_le hab
      by_cases hk : a.order = k
      · have hbk : ¬ b.order = k := by omega
        rw [if_pos hk]
        simp only [List.filter_cons, decide_eq_true_eq, hbk, if_false, ih, if_pos hk]
      · rw [if_neg hk]
        simp only [List.filter_cons, ih, if_neg hk]

/-- The source sort is stable: at every key `k` the sorted sibling sequence
lists exactly the records of key `k` in their original relative order. -/
theorem sortByOrder_filter_key (l : List Entry) (k : Int) :
    (sortByOrder l).filter (fun e => e.order = k) = l.filter (fun e => e.order = k) := by
  induction l with
  | nil => rfl
  | cons a l ih =>
    show ((l.insertionSort (fun a b => a.order ≤ b.order)).orderedInsert
        (fun a b => a.order ≤ b.order) a).filter (fun e => e.order = k) = _
    rw [orderedInsert_filter_key]
    by_cases hk : a.order = k
    · rw [if_pos hk]
      rw [show (l.insertionSort (fun a b => a.order ≤ b.order)) = sortByOrder l from rfl, ih]
      simp [List.filter_cons, hk]
    · rw [if_neg hk]
      rw [show (l.insertionSort (fun a b => a.order ≤ b.order)) = sortByOrder l from rfl, ih]
      simp [List.filter_cons, hk]

/-! Lemmas about root chains (`PathTo`). -/

theorem pathTo_mem {m : List Entry} {l : List Entry} (h : PathTo m l) : ∀ x ∈ l, x ∈ m := by
  induction h with
  | root he _ => simpa using he
  | child _ he _ ih =>
    intro x hx
    rcases List.mem_cons.mp hx with rfl | hx
    · exact he
    · exact ih x hx

/-- Inversion principle for a root chain with an explicit head. -/
theorem pathTo_cons_inv {m : List Entry} {e : Entry} {rest : List Entry}
    (h : PathTo m (e :: rest)) :
    (rest = [] ∧ e ∈ m ∧ rootB m e = true) ∨
    (∃ p rest2, rest = p :: rest2 ∧ PathTo m (p :: rest2) ∧ e ∈ m ∧
      e.parentId = some p.id) := by
  cases h with
  | root he hr => exact Or.inl ⟨rfl, he, hr⟩
  | child hp he hpar => exact Or.inr ⟨_, _, rfl, hp, he, hpar⟩

theorem pathTo_suffix {m : List Entry} :
    ∀ (l₁ l₂ : List Entry), PathTo m (l₁ ++ l₂) → l₂ ≠ [] → PathTo m l₂ := by
  intro l₁
  induction l₁ with
  | nil => exact fun l₂ h _ => h
  | cons a l₁ ih =>
    intro l₂ h hne
    rw [List.cons_append] at h
    rcases pathTo_cons_inv h with ⟨hnil, _, _⟩ | ⟨p, rest2, heq, hp, _, _⟩
    · rcases List.append_eq_nil.mp hnil with ⟨_, h2⟩
      exact absurd h2 hne
    · exact ih l₂ (heq ▸ hp) hne

theorem resolvesB_of_mem {m : List Entry} {e : Entry} (he : e ∈ m) :
    resolvesB m e.id = true := by
  simp only [resolvesB, List.any_eq_true]
  exact ⟨e, he, by simp⟩

/-- Every record on a root chain either passes the root test or has its
parent reference further along the chain. -/
theorem pathTo_parent_cases {m : List Entry} {l : List Entry} (h : PathTo m l) :
    ∀ x ∈ l, (x.parentId = none ∨ ∃ q, x.parentId = some q ∧ resolvesB m q = false) ∨
      ∃ y ∈ l, x.parentId = some y.id := by
  induction h with
  | root he hr =>
    intro x hx
    rcases List.mem_singleton.mp hx with rfl
    left
    revert hr
    unfold rootB
    cases hpid : x.parentId with
    | none => exact fun _ => Or.inl rfl
    | some q =>
      intro hr
      right
      exact ⟨q, rfl, by simpa using hr⟩
  | child hp he hpar ih =>
    rename_i e p rest
    intro x hx
    rcases List.mem_cons.mp hx with rfl | hx
    · right
      exact ⟨p, by simp, hpar⟩
    · rcases ih x hx with h1 | ⟨y, hy, hxy⟩
      · exact Or.inl h1
      · exact Or.inr ⟨y, List.mem_cons_of_mem _ hy, hxy⟩

theorem rootB_iff {m : List Entry} {e : Entry} :
    rootB m e = true ↔
      e.parentId = none ∨ ∃ p, e.parentId = some p ∧ resolvesB m p = false := by
  unfold rootB
  cases h : e.parentId with
  | none => simp
  | some p => simp [h]

theorem entry_id_inj {m : List Entry} (hm : (m.map Entry.id).Nodup) {a b : Entry}
    (ha : a ∈ m) (hb : b ∈ m) (hid : a.id = b.id) : a = b :=
  List.inj_on_of_nodup_map hm ha hb hid

/-- A root chain never repeats a record id, and the id of any record whose
parent reference points at the chain's head is fresh for the whole chain.
Both facts rest on ids being unique in the map. -/
theorem pathTo_nodup_fresh {m : List Entry} (hm : (m.map Entry.id).Nodup) {l : List Entry}
    (h : PathTo m l) :
    (l.map Entry.id).Nodup ∧
      ∀ c ∈ m, (∃ hd, l.head? = some hd ∧ c.parentId = some hd.id) →
        c.id ∉ l.map Entry.id := by
  induction h with
  | root he hr =>
    rename_i e
    refine ⟨by simp, ?_⟩
    rintro c hc ⟨hd, hhd, hpar⟩
    simp only [List.head?_cons, Option.some.injEq] at hhd
    subst hhd
    simp only [List.map_cons, List.map_nil, List.mem_singleton]
    intro hce
    have hceq : c = e := entry_id_inj hm hc he hce
    subst hceq
    rcases rootB_iff.mp hr with hnone | ⟨p, hp, hres⟩
    · rw [hnone] at hpar
      exact Option.noConfusion hpar
    · rw [hp] at hpar
      rw [Option.some.inj hpar, resolvesB_of_mem hc] at hres
      exact Bool.noConfusion hres
  | child hp he hpar ih =>
    rename_i e p rest
    obtain ⟨ndIH, freshIH⟩ := ih
    have hfresh_e : e.id ∉ (p :: rest).map Entry.id :=
      freshIH e he ⟨p, rfl, hpar⟩
    have hmem_path : ∀ x ∈ p :: rest, x ∈ m := pathTo_mem hp
    refine ⟨?_, ?_⟩
    · exact List.nodup_cons.mpr ⟨hfresh_e, ndIH⟩
    · rintro c hc ⟨hd, hhd, hpar2⟩
      simp only [List.head?_cons, Option.some.injEq] at hhd
      subst hhd
      intro hmem
      rcases List.mem_cons.mp hmem with hce | hmem2
    
      · have hceq : c = e := entry_id_inj hm hc he hce
        subst hceq
        rw [hpar2] at hpar
        have hpe : p.id = c.id := by
          have := Option.some.inj hpar
          omega
        exact hfresh_e (by
          rw [← hpe] at hce ⊢
          exact List.mem_map_of_mem Entry.id (List.mem_cons_self p rest))
      · obtain ⟨x, hx, hxid⟩ := List.mem_map.mp hmem2
        have hxeq : c = x := entry_id_inj hm hc (hmem_path x hx) hxid.symm
        subst hxeq
        rcases pathTo_parent_cases hp c hx with hno | ⟨y, hy, hcy⟩
        · rcases hno with hnone | ⟨q, hq, hres⟩
          · rw [hnone] at hpar2
            exact Option.noConfusion hpar2
          · rw [hq] at hpar2
            rw [Option.some.inj hpar2] at hres
            rw [resolvesB_of_mem he] at hres
            exact Bool.noConfusion hres
        · rw [hcy] at hpar2
          have hye : y.id = e.id := Option.some.inj hpar2
          exact hfresh_e (hye ▸ List.mem_map_of_mem Entry.id hy)

theorem pathTo_length_le {m : List Entry} (hm : (m.map Entry.id).Nodup) {l : List Entry}
    (h : PathTo m l) : l.length ≤ m.length := by
  have hnd : (l.map Entry.id).Nodup := (pathTo_nodup_fresh hm h).1
  have hsub : l.map Entry.id ⊆ m.map Entry.id := by
    intro i hi
    obtain ⟨x, hx, rfl⟩ := List.mem_map.mp hi
    exact List.mem_map_of_mem _ (pathTo_mem h x hx)
  have hle := (hnd.subperm hsub).length_le
  simpa using hle

theorem pathTo_shape {m : List Entry} {l : List Entry} (h : PathTo m l) :
    ∃ x t, l = x :: t := by
  cases h with
  | root he hr => exact ⟨_, [], rfl⟩
  | child hp he hpar => exact ⟨_, _, rfl⟩

/-- Root chains are unique per head: each record has at most one parent, so
the whole ancestor chain is determined by its deepest record. -/
theorem pathTo_unique {m : List Entry} (hm : (m.map Entry.id).Nodup) :
    ∀ {l₁ l₂ : List Entry}, PathTo m l₁ → PathTo m l₂ → l₁.head? = l₂.head? → l₁ = l₂ := by
  intro l₁ l₂ h1
  induction h1 generalizing l₂ with
  | root he hr =>
    rename_i e
    intro h2 hh
    obtain ⟨x, t, rfl⟩ := pathTo_shape h2
    simp only [List.head?_cons, Option.some.injEq] at hh
    subst hh
    rcases pathTo_cons_inv h2 with ⟨rfl, _, _⟩ | ⟨p₂, rest₂, rfl, hp₂, _, hpar₂⟩
    · rfl
    · rcases rootB_iff.mp hr with hnone | ⟨q, hq, hres⟩
      · rw [hnone] at hpar₂
        exact Option.noConfusion hpar₂
      · rw [hq] at hpar₂
        rw [Option.some.inj hpar₂] at hres
        have hp₂m : p₂ ∈ m := pathTo_mem hp₂ p₂ (List.mem_cons_self _ _)
        rw [resolvesB_of_mem hp₂m] at hres
        exact Bool.noConfusion hres
  | child hp he hpar ih =>
    rename_i e p rest
    intro h2 hh
    obtain ⟨x, t, rfl⟩ := pathTo_shape h2
    simp only [List.head?_cons, Option.some.injEq] at hh
    subst hh
    rcases pathTo_cons_inv h2 with ⟨rfl, _, hroot⟩ | ⟨p₂, rest₂, hrfl, hp₂, _, hpar₂⟩
    · rcases rootB_iff.mp hroot with hnone | ⟨q, hq, hres⟩
      · rw [hnone] at hpar
        exact Option.noConfusion hpar
      · rw [hq] at hpar
        rw [Option.some.inj hpar] at hres
        have hpm : p ∈ m := pathTo_mem hp p (List.mem_cons_self _ _)
        rw [resolvesB_of_mem hpm] at hres
        exact Bool.noConfusion hres
    · subst hrfl
      have hpp : p = p₂ := by
        rw [hpar] at hpar₂
        have hid : p.id = p₂.id := Option.some.inj hpar₂
        exact entry_id_inj hm (pathTo_mem hp p (List.mem_cons_self _ _))
          (pathTo_mem hp₂ p₂ (List.mem_cons_self _ _)) hid
      subst hpp
      have := ih hp₂ (by simp)
      rw [this]

theorem pathTo_last_root {m : List Entry} {l : List Entry} (h : PathTo m l) :
    ∃ r ρ, l = r ++ [ρ] ∧ ρ ∈ m ∧ rootB m ρ = true := by
  induction h with
  | root he hr => exact ⟨[], _, rfl, he, hr⟩
  | child hp he hpar ih =>
    obtain ⟨r, ρ, heq, hρ, hr⟩ := ih
    rename_i e p rest
    exact ⟨e :: r, ρ, by simp [heq], hρ, hr⟩

theorem mem_childEntries {m : List Entry} {pid : Nat} {c : Entry} :
    c ∈ childEntries m pid ↔ c ∈ m ∧ c.parentId = some pid := by
  simp [childEntries, List.mem_filter]

theorem buildItem_id (m : List Entry) (f : Nat) (e : Entry) :
    (buildItem m f e).id = e.id := by
  cases f <;> rfl

theorem buildItem_order (m : List Entry) (f : Nat) (e : Entry) :
    (buildItem m f e).order = e.order := by
  cases f <;> rfl

/-- The recursion depth the source `sortChildren` needs below a given chain is
bounded: with any two fuel budgets that cover the remaining chain length the
materialised subtree is the same. -/
theorem buildItem_fuel_congr {m : List Entry} (hm : (m.map Entry.id).Nodup) :
    ∀ (f g : Nat) (p : List Entry) (e : Entry), PathTo m (e :: p) →
      m.length + 1 ≤ (e :: p).length + f → m.length + 1 ≤ (e :: p).length + g →
      buildItem m f e = buildItem m g e := by
  intro f
  induction f with
  | zero =>
    intro g p e hp hf _
    have hlen := pathTo_length_le hm hp
    simp only [List.length_cons] at hf hlen
    omega
  | succ f ih =>
    intro g p e hp hf hg
    cases g with
    | zero =>
      have hlen := pathTo_length_le hm hp
      simp only [List.length_cons] at hg hlen
      omega
    | succ g =>
      simp only [buildItem]
      congr 1
      apply List.map_congr_left
      intro c hc
      obtain ⟨hcm, hcp⟩ := mem_childEntries.mp (mem_sortByOrder.mp hc)
      have hpath : PathTo m (c :: e :: p) := PathTo.child hp hcm hcp
      refine ih g (e :: p) c hpath ?_ ?_
      · simp only [List.length_cons] at hf ⊢
        omega
      · simp only [List.length_cons] at hg ⊢
        omega

theorem flattenForest_cons (c : MenuItem) (cs : List MenuItem) :
    flattenForest (c :: cs) = flattenItem c ++ flattenForest cs := rfl

theorem flattenItem_eq (n : MenuItem) : flattenItem n = n :: flattenForest n.children := by
  cases n
  rfl

theorem mem_flattenForest {ns : List MenuItem} {n : MenuItem} :
    n ∈ flattenForest ns ↔ ∃ t ∈ ns, n ∈ flattenItem t := by
  induction ns with
  | nil => simp [flattenForest]
  | cons c cs ih =>
    rw [flattenForest_cons]
    simp only [List.mem_append, ih, List.mem_cons]
    constructor
    · rintro (h | ⟨t, ht, hn⟩)
      · exact ⟨c, Or.inl rfl, h⟩
      · exact ⟨t, Or.inr ht, hn⟩
    · rintro ⟨t, rfl | ht, hn⟩
      · exact Or.inl hn
      · exact Or.inr ⟨t, ht, hn⟩

theorem count_flattenForest (i : Nat) (ns : List MenuItem) :
    ((flattenForest ns).map MenuItem.id).count i
      = (ns.map (fun n => ((flattenItem n).map MenuItem.id).count i)).sum := by
  induction ns with
  | nil => rfl
  | cons c cs ih =>
    rw [flattenForest_cons]
    simp only [List.map_append, List.count_append, List.map_cons, List.sum_cons, ih]

theorem sum_map_zero {β : Type} (g : β → Nat) :
    ∀ (cs : List β), (∀ c ∈ cs, g c = 0) → (cs.map g).sum = 0 := by
  intro cs
  induction cs with
  | nil => intro _; rfl
  | cons c cs ih =>
    intro h
    simp only [List.map_cons, List.sum_cons, h c (List.mem_cons_self _ _),
      ih (fun d hd => h d (List.mem_cons_of_mem _ hd))]

theorem sum_map_one {β : Type} (g : β → Nat) :
    ∀ (cs : List β), cs.Nodup → ∀ c ∈ cs, g c = 1 →
      (∀ d ∈ cs, d ≠ c → g d = 0) → (cs.map g).sum = 1 := by
  intro cs
  induction cs with
  | nil => intro _ c hc; cases hc
  | cons a cs ih =>
    intro hnd c hc h1 h0
    obtain ⟨hna, hnds⟩ := List.nodup_cons.mp hnd
    rcases List.mem_cons.mp hc with rfl | hc2
    · have hz : ∀ d ∈ cs, g d = 0 := fun d hd =>
        h0 d (List.mem_cons_of_mem _ hd) (fun hdc => hna (hdc ▸ hd))
      simp only [List.map_cons, List.sum_cons, h1, sum_map_zero g cs hz]
    · have ha : g a = 0 := h0 a (List.mem_cons_self _ _)
        (fun hac => hna (hac ▸ hc2))
      simp only [List.map_cons, List.sum_cons, ha, Nat.zero_add]
      exact ih hnds c hc2 h1 (fun d hd hdc => h0 d (List.mem_cons_of_mem _ hd) hdc)

theorem head?_some_mem {β : Type} {l : List β} {x : β} (h : l.head? = some x) : x ∈ l := by
  cases l with
  | nil => cases h
  | cons a l =>
    simp only [List.head?_cons, Option.some.injEq] at h
    exact h ▸ List.mem_cons_self _ _

theorem append_singleton_inj {β : Type} {r₁ r₂ : List β} {c₁ c₂ : β}
    (h : r₁ ++ [c₁] = r₂ ++ [c₂]) : c₁ = c₂ := by
  have hrev := congrArg List.reverse h
  simp only [List.reverse_append, List.reverse_cons, List.reverse_nil, List.nil_append,
    List.singleton_append] at hrev
  exact (List.cons.injEq _ _ _ _ |>.mp hrev).1

theorem subtreeReach_extend {m : List Entry} {c : Entry} {base : List Entry} {i : Nat}
    (h : SubtreeReach m (c :: base) i) : SubtreeReach m base i := by
  obtain ⟨r, x, hp, hh, hid⟩ := h
  refine ⟨r ++ [c], x, ?_, ?_, hid⟩
  · rw [List.append_assoc, List.singleton_append]
    exact hp
  · rw [List.append_assoc, List.singleton_append]
    exact hh

/-- At most one record can own the subtree containing a given id: root chains
are unique per head, so the chain passes through a unique child of the base. -/
theorem subtreeReach_child_unique {m : List Entry} (hm : (m.map Entry.id).Nodup)
    {c₁ c₂ : Entry} {base : List Entry} {i : Nat}
    (h₁ : SubtreeReach m (c₁ :: base) i) (h₂ : SubtreeReach m (c₂ :: base) i) : c₁ = c₂ := by
  obtain ⟨r₁, x₁, hp₁, hh₁, hid₁⟩ := h₁
  obtain ⟨r₂, x₂, hp₂, hh₂, hid₂⟩ := h₂
  have hx₁ : x₁ ∈ m := pathTo_mem hp₁ x₁ (head?_some_mem hh₁)
  have hx₂ : x₂ ∈ m := pathTo_mem hp₂ x₂ (head?_some_mem hh₂)
  have hxeq : x₁ = x₂ := entry_id_inj hm hx₁ hx₂ (hid₁.trans hid₂.symm)
  have heads : (r₁ ++ c₁ :: base).head? = (r₂ ++ c₂ :: base).head? := by
    rw [hh₁, hh₂, hxeq]
  have hPeq := pathTo_unique hm hp₁ hp₂ heads
  have hPeq2 : (r₁ ++ [c₁]) ++ base = (r₂ ++ [c₂]) ++ base := by
    rw [List.append_assoc, List.append_assoc, List.singleton_append, List.singleton_append]
    exact hPeq
  exact append_singleton_inj (List.append_cancel_right hPeq2)

/-- The subtree below a chain headed by `e` never contains `e`'s own id
again: the extended chain would repeat it. -/
theorem subtreeReach_not_head {m : List Entry} (hm : (m.map Entry.id).Nodup)
    {c e : Entry} {p : List Entry} (h : SubtreeReach m (c :: e :: p) e.id) : False := by
  obtain ⟨r, x, hp, hh, hid⟩ := h
  have hnd : ((r ++ c :: e :: p).map Entry.id).Nodup := (pathTo_nodup_fresh hm hp).1
  have hndl : (r ++ c :: e :: p).Nodup := hnd.of_map
  have hx : x ∈ r ++ c :: e :: p := head?_some_mem hh
  have hxm : x ∈ m := pathTo_mem hp x hx
  have hem : e ∈ m := pathTo_mem hp e (by simp)
  have hxe : x = e := entry_id_inj hm hxm hem hid
  subst hxe
  cases r with
  | nil =>
    simp only [List.nil_append, List.head?_cons, Option.some.injEq] at hh
    subst hh
    rw [List.nil_append] at hndl
    have := (List.nodup_cons.mp hndl).1
    exact this (by simp)
  | cons a r =>
    simp only [List.cons_append, List.head?_cons, Option.some.injEq] at hh
    subst hh
    rw [List.cons_append] at hndl
    have := (List.nodup_cons.mp hndl).1
    exact this (by simp)

/-- A chain below `e :: p` reaching an id other than `e.id` passes through a
child of `e` in the map. -/
theorem subtreeReach_step {m : List Entry} {e : Entry} {p : List Entry} {i : Nat}
    (h : SubtreeReach m (e :: p) i) (hne : i ≠ e.id) :
    ∃ c, (c ∈ m ∧ c.parentId = some e.id) ∧ SubtreeReach m (c :: e :: p) i := by
  obtain ⟨r, x, hp, hh, hid⟩ := h
  rcases List.eq_nil_or_concat r with rfl | ⟨r₂, c, rfl⟩
  · simp only [List.nil_append, List.head?_cons, Option.some.injEq] at hh
    subst hh
    exact absurd hid.symm hne
  · simp only [List.concat_eq_append] at hp hh
    have hre : r₂ ++ [c] ++ (e :: p) = r₂ ++ (c :: e :: p) := by
      rw [List.append_assoc, List.singleton_append]
    rw [hre] at hp hh
    have hsuf : PathTo m (c :: e :: p) :=
      pathTo_suffix r₂ (c :: e :: p) hp (by simp)
    rcases pathTo_cons_inv hsuf with ⟨habs, _, _⟩ | ⟨p₂, rest₂, heq, _, hcm, hcpar⟩
    · exact absurd habs (by simp)
    · have hp₂ : p₂ = e := ((List.cons.injEq _ _ _ _ |>.mp heq).1).symm
      subst hp₂
      exact ⟨c, ⟨hcm, hcpar⟩, r₂, x, hp, hh, hid⟩

/-- Master counting lemma: below a chain `e :: p`, the materialised subtree
contains a node with id `i` exactly once when some record below the chain has
that id, and not at all otherwise. -/
theorem buildItem_count {m : List Entry} (hm : (m.map Entry.id).Nodup) :
    ∀ (f : Nat) (p : List Entry) (e : Entry), PathTo m (e :: p) →
      m.length + 1 ≤ (e :: p).length + f →
      ∀ i : Nat,
        (SubtreeReach m (e :: p) i →
          ((flattenItem (buildItem m f e)).map MenuItem.id).count i = 1) ∧
        (¬ SubtreeReach m (e :: p) i →
          ((flattenItem (buildItem m f e)).map MenuItem.id).count i = 0) := by
  intro f
  induction f with
  | zero =>
    intro p e hp hf
    have hlen := pathTo_length_le hm hp
    simp only [List.length_cons] at hf hlen
    omega
  | succ f ih =>
    intro p e hp hf i
    have hdecomp : (flattenItem (buildItem m (f + 1) e)).map MenuItem.id
        = e.id :: (flattenForest
            ((sortByOrder (childEntries m e.id)).map (buildItem m f))).map MenuItem.id := rfl
    have hchild : ∀ c ∈ sortByOrder (childEntries m e.id),
        c ∈ m ∧ c.parentId = some e.id := fun c hc =>
      mem_childEntries.mp (mem_sortByOrder.mp hc)
    have hpathc : ∀ c ∈ sortByOrder (childEntries m e.id), PathTo m (c :: e :: p) :=
      fun c hc => PathTo.child hp (hchild c hc).1 (hchild c hc).2
    have hfuel : ∀ c : Entry, m.length + 1 ≤ (c :: e :: p).length + f := by
      intro c
      simp only [List.length_cons] at hf ⊢
      omega
    have hnd_ce : (childEntries m e.id).Nodup := by
      unfold childEntries
      exact List.Nodup.filter _ hm.of_map
    have hnd_cs : (sortByOrder (childEntries m e.id)).Nodup :=
      ((sortByOrder_perm (childEntries m e.id)).nodup_iff).mpr hnd_ce
    have hsum : ((flattenForest
        ((sortByOrder (childEntries m e.id)).map (buildItem m f))).map MenuItem.id).count i
        = ((sortByOrder (childEntries m e.id)).map
            (fun c => ((flattenItem (buildItem m f c)).map MenuItem.id).count i)).sum := by
      rw [count_flattenForest, List.map_map]
      rfl
    constructor
    · intro hreach
      by_cases hie : i = e.id
      · subst hie
        have hz : ∀ c ∈ sortByOrder (childEntries m e.id),
            ((flattenItem (buildItem m f c)).map MenuItem.id).count e.id = 0 := by
          intro c hc
          exact (ih (e :: p) c (hpathc c hc) (hfuel c) e.id).2
            (fun habs => subtreeReach_not_head hm habs)
        rw [hdecomp, List.count_cons, hsum, sum_map_zero _ _ hz]
        simp
      · obtain ⟨c₀, ⟨hc₀m, hc₀p⟩, hc₀reach⟩ := subtreeReach_step hreach hie
        have hc₀cs : c₀ ∈ sortByOrder (childEntries m e.id) :=
          mem_sortByOrder.mpr (mem_childEntries.mpr ⟨hc₀m, hc₀p⟩)
        have h1 : ((flattenItem (buildItem m f c₀)).map MenuItem.id).count i = 1 :=
          (ih (e :: p) c₀ (hpathc c₀ hc₀cs) (hfuel c₀) i).1 hc₀reach
        have h0 : ∀ d ∈ sortByOrder (childEntries m e.id), d ≠ c₀ →
            ((flattenItem (buildItem m f d)).map MenuItem.id).count i = 0 := by
          intro d hd hdc
          refine (ih (e :: p) d (hpathc d hd) (hfuel d) i).2 (fun habs => ?_)
          exact hdc (subtreeReach_child_unique hm habs hc₀reach)
        rw [hdecomp, List.count_cons, hsum,
          sum_map_one _ (sortByOrder (childEntries m e.id)) hnd_cs c₀ hc₀cs h1 h0]
        have hie2 : ¬ e.id = i := fun h => hie h.symm
        simp [hie2]
    · intro hnone
      have hie : i ≠ e.id := by
        rintro rfl
        exact hnone ⟨[], e, by simpa using hp, by simp, rfl⟩
      have hz : ∀ c ∈ sortByOrder (childEntries m e.id),
          ((flattenItem (buildItem m f c)).map MenuItem.id).count i = 0 := by
        intro c hc
        refine (ih (e :: p) c (hpathc c hc) (hfuel c) i).2 (fun habs => ?_)
        exact hnone (subtreeReach_extend habs)
      rw [hdecomp, List.count_cons, hsum, sum_map_zero _ _ hz]
      have hie2 : ¬ e.id = i := fun h => hie h.symm
      simp [hie2]

/-- Every node of a materialised subtree carries, as its child list, the
sorted child entries of its own id, materialised at some fuel. -/
theorem buildItem_nodes {m : List Entry} (hm : (m.map Entry.id).Nodup) :
    ∀ (f : Nat) (p : List Entry) (e : Entry), PathTo m (e :: p) →
      m.length + 1 ≤ (e :: p).length + f →
      ∀ n ∈ flattenItem (buildItem m f e),
        ∃ g : Nat, n.children = (sortByOrder (childEntries m n.id)).map (buildItem m g) := by
  intro f
  induction f with
  | zero =>
    intro p e hp hf
    have hlen := pathTo_length_le hm hp
    simp only [List.length_cons] at hf hlen
    omega
  | succ f ih =>
    intro p e hp hf n hn
    have hdecomp : flattenItem (buildItem m (f + 1) e)
        = buildItem m (f + 1) e
            :: flattenForest ((sortByOrder (childEntries m e.id)).map (buildItem m f)) := rfl
    rw [hdecomp] at hn
    rcases List.mem_cons.mp hn with rfl | hn2
    · exact ⟨f, rfl⟩
    · obtain ⟨t, ht, hnt⟩ := mem_flattenForest.mp hn2
      obtain ⟨c, hc, rfl⟩ := List.mem_map.mp ht
      obtain ⟨hcm, hcp⟩ := mem_childEntries.mp (mem_sortByOrder.mp hc)
      refine ih (e :: p) c (PathTo.child hp hcm hcp) ?_ n hnt
      simp only [List.length_cons] at hf ⊢
      omega

theorem pathTo_of_head? {m : List Entry} {l : List Entry} {x : Entry}
    (hp : PathTo m l) (hh : l.head? = some x) : ∃ t, PathTo m (x :: t) := by
  cases l with
  | nil => cases hh
  | cons y t =>
    simp only [List.head?_cons, Option.some.injEq] at hh
    subst hh
    exact ⟨t, hp⟩

/-- Shape and order properties shared by every materialised sibling list:
ascending in `order`, per-key identical to the unsorted child entries (the
stable-sort tie-break), and id-wise a permutation of its source entries. -/
theorem built_children_props (m : List Entry) (src : List Entry) (g : Nat) :
    ((((sortByOrder src).map (buildItem m g)).map MenuItem.order).Sorted
        (fun a b : Int => a ≤ b)) ∧
    (∀ k : Int, (((sortByOrder src).map (buildItem m g)).filter
          (fun n => n.order = k)).map MenuItem.id
        = (src.filter (fun e2 => e2.order = k)).map Entry.id) ∧
    List.Perm (((sortByOrder src).map (buildItem m g)).map MenuItem.id)
      (src.map Entry.id) := by
  have hordmap : ((sortByOrder src).map (buildItem m g)).map MenuItem.order
      = (sortByOrder src).map Entry.order := by
    rw [List.map_map]
    exact List.map_congr_left (fun e2 _ => buildItem_order m g e2)
  have hidmap : ((sortByOrder src).map (buildItem m g)).map MenuItem.id
      = (sortByOrder src).map Entry.id := by
    rw [List.map_map]
    exact List.map_congr_left (fun e2 _ => buildItem_id m g e2)
  refine ⟨?_, ?_, ?_⟩
  · rw [hordmap]
    exact (sortByOrder_sorted src).map Entry.order (fun a b h => h)
  · intro k
    rw [List.filter_map]
    have hfil : (sortByOrder src).filter
          ((fun n => decide (MenuItem.order n = k)) ∘ buildItem m g)
        = (sortByOrder src).filter (fun e2 => e2.order = k) := by
      apply List.filter_congr
      intro e2 _
      simp [Function.comp, buildItem_order]
    rw [hfil, sortByOrder_filter_key]
    rw [List.map_map]
    exact List.map_congr_left (fun e2 _ => buildItem_id m g e2)
  · rw [hidmap]
    exact (sortByOrder_perm src).map Entry.id

theorem mem_rootEntries {m : List Entry} {e : Entry} :
    e ∈ rootEntries m ↔ e ∈ m ∧ rootB m e = true := by
  simp [rootEntries, List.mem_filter]

theorem rootEntries_sorted_nodup {m : List Entry} (hm : (m.map Entry.id).Nodup) :
    (sortByOrder (rootEntries m)).Nodup := by
  refine ((sortByOrder_perm (rootEntries m)).nodup_iff).mpr ?_
  unfold rootEntries
  exact List.Nodup.filter _ hm.of_map

theorem pathTo_root_of_mem_sorted {m : List Entry} {ρ : Entry}
    (hρ : ρ ∈ sortByOrder (rootEntries m)) : PathTo m [ρ] := by
  obtain ⟨hρm, hρr⟩ := mem_rootEntries.mp (mem_sortByOrder.mp hρ)
  exact PathTo.root hρm hρr

/-- Top-level counting: the whole returned forest contains id `i` exactly once
when a record with id `i` reaches a root, and not at all otherwise. -/
theorem transform_count {items : List SPItem}
    (hm : ((entriesOf items).map Entry.id).Nodup) (i : Nat) :
    ((∃ e ∈ entriesOf items, e.id = i ∧ ReachesRoot (entriesOf items) e) →
      (forestIds (transformSharePointData items)).count i = 1) ∧
    ((¬ ∃ e ∈ entriesOf items, e.id = i ∧ ReachesRoot (entriesOf items) e) →
      (forestIds (transformSharePointData items)).count i = 0) := by
  have hsum : (forestIds (transformSharePointData items)).count i
      = ((sortByOrder (rootEntries (entriesOf items))).map
          (fun ρ => ((flattenItem (buildItem (entriesOf items)
            (entriesOf items).length ρ)).map MenuItem.id).count i)).sum := by
    show ((flattenForest ((sortByOrder (rootEntries (entriesOf items))).map
        (buildItem (entriesOf items) (entriesOf items).length))).map MenuItem.id).count i = _
    rw [count_flattenForest, List.map_map]
    rfl
  have hper : ∀ ρ ∈ sortByOrder (rootEntries (entriesOf items)),
      (SubtreeReach (entriesOf items) [ρ] i →
        ((flattenItem (buildItem (entriesOf items) (entriesOf items).length ρ)).map
          MenuItem.id).count i = 1) ∧
      (¬ SubtreeReach (entriesOf items) [ρ] i →
        ((flattenItem (buildItem (entriesOf items) (entriesOf items).length ρ)).map
          MenuItem.id).count i = 0) := by
    intro ρ hρ
    exact buildItem_count hm (entriesOf items).length [] ρ
      (pathTo_root_of_mem_sorted hρ) (by simp [Nat.add_comm]) i
  constructor
  · rintro ⟨e, hem, rfl, rest, hpath⟩
    obtain ⟨r, ρ, heq, hρm, hρr⟩ := pathTo_last_root hpath
    have hρroot : ρ ∈ sortByOrder (rootEntries (entriesOf items)) :=
      mem_sortByOrder.mpr (mem_rootEntries.mpr ⟨hρm, hρr⟩)
    have hreachρ : SubtreeReach (entriesOf items) [ρ] e.id := by
      refine ⟨r, e, ?_, ?_, rfl⟩
      · rw [← heq]
        exact hpath
      · rw [← heq]
        rfl
    rw [hsum]
    refine sum_map_one _ _ (rootEntries_sorted_nodup hm) ρ hρroot
      ((hper ρ hρroot).1 hreachρ) ?_
    intro ρ2 hρ2 hne
    refine (hper ρ2 hρ2).2 (fun habs => ?_)
    exact hne (subtreeReach_child_unique hm habs hreachρ)
  · intro hno
    rw [hsum]
    refine sum_map_zero _ _ ?_
    intro ρ hρ
    refine (hper ρ hρ).2 (fun habs => ?_)
    obtain ⟨r, x, hP, hh, hid⟩ := habs
    obtain ⟨t, hPt⟩ := pathTo_of_head? hP hh
    exact hno ⟨x, pathTo_mem hP x (head?_some_mem hh), hid, t, hPt⟩

/-- Every node anywhere in the returned forest has the sorted child entries
of its id as children. -/
theorem transform_nodes {items : List SPItem}
    (hm : ((entriesOf items).map Entry.id).Nodup) :
    ∀ n ∈ flattenForest (transformSharePointData items),
      ∃ g : Nat, n.children
        = (sortByOrder (childEntries (entriesOf items) n.id)).map
            (buildItem (entriesOf items) g) := by
  intro n hn
  obtain ⟨t, ht, hnt⟩ := mem_flattenForest.mp hn
  obtain ⟨ρ, hρ, rfl⟩ := List.mem_map.mp ht
  exact buildItem_nodes hm (entriesOf items).length [] ρ
    (pathTo_root_of_mem_sorted hρ) (by simp [Nat.add_comm]) n hnt

theorem jsMapSet_fresh {κ α : Type} [DecidableEq κ] (m : List (κ × α)) (k : κ) (v : α)
    (h : m.any (fun it => it.1 = k) = false) : jsMapSet m k v = m ++ [(k, v)] := by
  unfold jsMapSet
  rw [if_neg]
  simp [h]

theorem foldl_jsMapSet_eq :
    ∀ (items : List SPItem) (acc : List (Nat × Entry)),
      (∀ it ∈ items, acc.any (fun p => p.1 = it.Id) = false) →
      (items.map SPItem.Id).Nodup →
      items.foldl (fun m2 it => jsMapSet m2 it.Id (toEntry it)) acc
        = acc ++ items.map (fun it => (it.Id, toEntry it)) := by
  intro items
  induction items with
  | nil =>
    intro acc _ _
    simp
  | cons it items ih =>
    intro acc hacc hnd
    have hndc : (it.Id :: items.map SPItem.Id).Nodup := by simpa using hnd
    simp only [List.foldl_cons]
    rw [jsMapSet_fresh _ _ _ (hacc it (List.mem_cons_self _ _))]
    rw [ih (acc ++ [(it.Id, toEntry it)]) ?_ (List.nodup_cons.mp hndc).2]
    · simp
    · intro it2 hit2
      have h1 : acc.any (fun p => p.1 = it2.Id) = false :=
        hacc it2 (List.mem_cons_of_mem _ hit2)
      have h2 : it.Id ≠ it2.Id := by
        intro habs
        exact (List.nodup_cons.mp hndc).1 (habs ▸ List.mem_map_of_mem SPItem.Id hit2)
      simp [List.any_append, h1, h2]

theorem entriesOf_eq {items : List SPItem} (hnd : (items.map SPItem.Id).Nodup) :
    entriesOf items = items.map toEntry := by
  unfold entriesOf itemMapPairs
  rw [foldl_jsMapSet_eq items [] (fun _ _ => rfl) hnd]
  simp [List.map_map]

theorem entriesOf_ids {items : List SPItem} (hnd : (items.map SPItem.Id).Nodup) :
    (entriesOf items).map Entry.id = items.map SPItem.Id := by
  rw [entriesOf_eq hnd, List.map_map]
  rfl

theorem entriesOf_nodup_ids {items : List SPItem} (hnd : (items.map SPItem.Id).Nodup) :
    ((entriesOf items).map Entry.id).Nodup := by
  rw [entriesOf_ids hnd]
  exact hnd

/-- C2 amended.  For every flat record collection (with SharePoint-unique
ids), including every collection containing a cyclic parent chain:
reconstruction terminates — the recursion depth the source `sortChildren`
needs is bounded by the number of records, stated as fuel-independence of the
materialisation beyond that bound; records whose parent chain never reaches a
root (in particular every record on a cyclic parent chain) are excluded from
the produced tree; records whose chain does reach a root are still
reconstructed, exactly once, so the whole tree is not aborted.  No
reconstruction error is reported for the excluded records: the exclusion is
silent (see the counterexample). -/
theorem claim2_amended_cycle_safety (items : List SPItem)
    (hnd : (items.map SPItem.Id).Nodup) :
    (∀ fuel : Nat, (entriesOf items).length ≤ fuel →
      transformWithFuel items fuel = transformSharePointData items) ∧
    (∀ e ∈ entriesOf items, ¬ ReachesRoot (entriesOf items) e →
      e.id ∉ forestIds (transformSharePointData items)) ∧
    (∀ e ∈ entriesOf items, ReachesRoot (entriesOf items) e →
      (forestIds (transformSharePointData items)).count e.id = 1) ∧
    transformReconstructionErrors items = [] := by
  have hm := entriesOf_nodup_ids hnd
  refine ⟨?_, ?_, ?_, rfl⟩
  · intro fuel hfuel
    unfold transformSharePointData transformWithFuel
    apply List.map_congr_left
    intro ρ hρ
    refine buildItem_fuel_congr hm fuel (entriesOf items).length [] ρ
      (pathTo_root_of_mem_sorted hρ) ?_ ?_
    · simp only [List.length_cons, List.length_nil]
      omega
    · simp only [List.length_cons, List.length_nil]
      omega
  · intro e he hnr
    refine List.count_eq_zero.mp ((transform_count hm e.id).2 ?_)
    rintro ⟨x, hxm, hxid, hxr⟩
    have hxe : x = e := entry_id_inj hm hxm he hxid
    exact hnr (hxe ▸ hxr)
  · intro e he hr
    exact (transform_count hm e.id).1 ⟨e, he, rfl, hr⟩

/-- Witness for C2 on a concrete collection with the cycle 1 → 2 → 1 and the
standalone root 3: any fuel beyond the record count reproduces the tree, and
no reconstruction error is reported. -/
theorem claim2_witness :
    transformWithFuel [⟨1, "a", none, some 2, some 1, none⟩,
        ⟨2, "b", none, some 1, some 2, none⟩, ⟨3, "c", none, none, some 3, none⟩] 5
      = transformSharePointData [⟨1, "a", none, some 2, some 1, none⟩,
        ⟨2, "b", none, some 1, some 2, none⟩, ⟨3, "c", none, none, some 3, none⟩] ∧
    transformReconstructionErrors [⟨1, "a", none, some 2, some 1, none⟩,
        ⟨2, "b", none, some 1, some 2, none⟩, ⟨3, "c", none, none, some 3, none⟩] = [] := by
  have h := claim2_amended_cycle_safety [⟨1, "a", none, some 2, some 1, none⟩,
    ⟨2, "b", none, some 1, some 2, none⟩, ⟨3, "c", none, none, some 3, none⟩] (by decide)
  exact ⟨h.1 5 (by decide), h.2.2.2⟩

/-- Counterexample to C2 as stated.  On the cyclic collection
`[{Id 1, parent 2}, {Id 2, parent 1}, {Id 3, root}]` the records 1 and 2 are
excluded from the returned tree (only 3 is produced), yet no reconstruction
error is reported for them: `transformSharePointData` has no error channel at
all, so the reported-error list is empty and in particular does not name the
excluded record 1. -/
theorem claim2_counterexample :
    forestIds (transformSharePointData [⟨1, "a", none, some 2, some 1, none⟩,
      ⟨2, "b", none, some 1, some 2, none⟩, ⟨3, "c", none, none, some 3, none⟩]) = [3] ∧
    (1 : Nat) ∉ forestIds (transformSharePointData [⟨1, "a", none, some 2, some 1, none⟩,
      ⟨2, "b", none, some 1, some 2, none⟩, ⟨3, "c", none, none, some 3, none⟩]) ∧
    transformReconstructionErrors [⟨1, "a", none, some 2, some 1, none⟩,
      ⟨2, "b", none, some 1, some 2, none⟩, ⟨3, "c", none, none, some 3, none⟩] = [] ∧
    (1 : Nat) ∉ transformReconstructionErrors [⟨1, "a", none, some 2, some 1, none⟩,
      ⟨2, "b", none, some 1, some 2, none⟩, ⟨3, "c", none, none, some 3, none⟩] := by
  refine ⟨rfl, ?_, rfl, ?_⟩ <;> decide

/-- C1 amended.  For every acyclic flat record collection with unique ids:
every record is placed in the returned tree exactly once; a record whose
parent reference resolves in the index is placed under the node carrying that
parent id, and a record whose reference is absent or unresolved is placed at
the top level; the top-level sequence and every sibling sequence are sorted
by the `order` field ascending — always ascending: the configured descending
direction affects only the server-side query (see the counterexample) — with
ties listed in original record order (per-key the sorted sequence equals the
unsorted attachment sequence), never re-ordered by id or title. -/
theorem claim1_amended_reconstruction (items : List SPItem)
    (hnd : (items.map SPItem.Id).Nodup) (hacyc : AcyclicCollection items) :
    (∀ it ∈ items, (forestIds (transformSharePointData items)).count it.Id = 1) ∧
    (∀ it ∈ items, ∀ pid : Nat, (toEntry it).parentId = some pid →
      (resolvesB (entriesOf items) pid = true →
        ∃ n ∈ flattenForest (transformSharePointData items), n.id = pid ∧
          it.Id ∈ n.children.map MenuItem.id) ∧
      (resolvesB (entriesOf items) pid = false →
        it.Id ∈ (transformSharePointData items).map MenuItem.id)) ∧
    (∀ it ∈ items, (toEntry it).parentId = none →
      it.Id ∈ (transformSharePointData items).map MenuItem.id) ∧
    (((transformSharePointData items).map MenuItem.order).Sorted
        (fun a b : Int => a ≤ b) ∧
      ∀ k : Int, ((transformSharePointData items).filter
          (fun n => n.order = k)).map MenuItem.id
        = ((rootEntries (entriesOf items)).filter
            (fun e2 => e2.order = k)).map Entry.id) ∧
    (∀ n ∈ flattenForest (transformSharePointData items),
      (n.children.map MenuItem.order).Sorted (fun a b : Int => a ≤ b) ∧
      ∀ k : Int, (n.children.filter (fun c => c.order = k)).map MenuItem.id
        = ((childEntries (entriesOf items) n.id).filter
            (fun e2 => e2.order = k)).map Entry.id) := by
  have hm := entriesOf_nodup_ids hnd
  have hmem : ∀ it ∈ items, toEntry it ∈ entriesOf items := by
    intro it hit
    rw [entriesOf_eq hnd]
    exact List.mem_map_of_mem toEntry hit
  refine ⟨?_, ?_, ?_, ?_, ?_⟩
  · intro it hit
    exact (transform_count hm it.Id).1
      ⟨toEntry it, hmem it hit, rfl, hacyc _ (hmem it hit)⟩
  · intro it hit pid hpid
    constructor
    · intro hres
      have hx : ∃ x ∈ entriesOf items, x.id = pid := by
        simpa [resolvesB, List.any_eq_true] using hres
      obtain ⟨x, hxm, hxid⟩ := hx
      have hxcount := (transform_count hm pid).1 ⟨x, hxm, hxid, hacyc x hxm⟩
      have hmemf : pid ∈ forestIds (transformSharePointData items) := by
        by_contra habs
        rw [List.count_eq_zero.mpr habs] at hxcount
        omega
      obtain ⟨n, hn, hnid⟩ := List.mem_map.mp hmemf
      refine ⟨n, hn, hnid, ?_⟩
      obtain ⟨g, hg⟩ := transform_nodes hm n hn
      rw [hg, hnid]
      have hsrt : toEntry it ∈ sortByOrder (childEntries (entriesOf items) pid) :=
        mem_sortByOrder.mpr (mem_childEntries.mpr ⟨hmem it hit, hpid⟩)
      exact List.mem_map.mpr ⟨buildItem (entriesOf items) g (toEntry it),
        List.mem_map_of_mem _ hsrt, buildItem_id _ _ _⟩
    · intro hres
      have hroot : rootB (entriesOf items) (toEntry it) = true :=
        rootB_iff.mpr (Or.inr ⟨pid, hpid, hres⟩)
      have hsrt : toEntry it ∈ sortByOrder (rootEntries (entriesOf items)) :=
        mem_sortByOrder.mpr (mem_rootEntries.mpr ⟨hmem it hit, hroot⟩)
      exact List.mem_map.mpr ⟨buildItem (entriesOf items) (entriesOf items).length
        (toEntry it), List.mem_map_of_mem _ hsrt, buildItem_id _ _ _⟩
  · intro it hit hnone
    have hroot : rootB (entriesOf items) (toEntry it) = true :=
      rootB_iff.mpr (Or.inl hnone)
    have hsrt : toEntry it ∈ sortByOrder (rootEntries (entriesOf items)) :=
      mem_sortByOrder.mpr (mem_rootEntries.mpr ⟨hmem it hit, hroot⟩)
    exact List.mem_map.mpr ⟨buildItem (entriesOf items) (entriesOf items).length
      (toEntry it), List.mem_map_of_mem _ hsrt, buildItem_id _ _ _⟩
  · exact ⟨(built_children_props (entriesOf items) (rootEntries (entriesOf items))
        (entriesOf items).length).1,
      (built_children_props (entriesOf items) (rootEntries (entriesOf items))
        (entriesOf items).length).2.1⟩
  · intro n hn
    obtain ⟨g, hg⟩ := transform_nodes hm n hn
    rw [hg]
    exact ⟨(built_children_props (entriesOf items)
        (childEntries (entriesOf items) n.id) g).1,
      (built_children_props (entriesOf items)
        (childEntries (entriesOf items) n.id) g).2.1⟩

/-- Witness for C1 on the specification's own example collection
`[{Id 1, root, Order 2}, {Id 2, root, Order 1}, {Id 3, parent 1, Order 1}]`:
every record appears exactly once and the top level is ascending in order. -/
theorem claim1_witness :
    (forestIds (transformSharePointData [⟨1, "x", none, none, some 2, none⟩,
        ⟨2, "y", none, none, some 1, none⟩, ⟨3, "z", none, some 1, some 1, none⟩])).count 3
      = 1 ∧
    ((transformSharePointData [⟨1, "x", none, none, some 2, none⟩,
        ⟨2, "y", none, none, some 1, none⟩,
        ⟨3, "z", none, some 1, some 1, none⟩]).map MenuItem.order).Sorted
      (fun a b : Int => a ≤ b) := by
  have hacyc : AcyclicCollection [⟨1, "x", none, none, some 2, none⟩,
      ⟨2, "y", none, none, some 1, none⟩, ⟨3, "z", none, some 1, some 1, none⟩] := by
    intro e he
    have hentries : entriesOf [⟨1, "x", none, none, some 2, none⟩,
        ⟨2, "y", none, none, some 1, none⟩, ⟨3, "z", none, some 1, some 1, none⟩]
        = [⟨1, "x", "#", none, 2, false⟩, ⟨2, "y", "#", none, 1, false⟩,
           ⟨3, "z", "#", some 1, 1, false⟩] := rfl
    rw [hentries] at he
    simp only [List.mem_cons, List.not_mem_nil, or_false] at he
    rcases he with rfl | rfl | rfl
    · exact ⟨[], PathTo.root (by decide) (by decide)⟩
    · exact ⟨[], PathTo.root (by decide) (by decide)⟩
    · exact ⟨[⟨1, "x", "#", none, 2, false⟩],
        PathTo.child (PathTo.root (by decide) (by decide)) (by decide) (by decide)⟩
  have h := claim1_amended_reconstruction [⟨1, "x", none, none, some 2, none⟩,
    ⟨2, "y", none, none, some 1, none⟩, ⟨3, "z", none, some 1, some 1, none⟩]
    (by decide) hacyc
  exact ⟨h.1 ⟨3, "z", none, some 1, some 1, none⟩ (by decide), h.2.2.2.1.1⟩

/-- Counterexample to C1 as stated.  With the descending direction configured
(`sharePoint.ascending = false`) the server hands the rows over sorted
descending by `Order` ([Id 2, Id 1]), but the client-side sort of
`transformSharePointData` re-sorts every sibling sequence ascending — the
configured direction is never consulted on the client — so the resulting
top-level order sequence is [1, 2], not descending as the claim requires. -/
theorem claim1_counterexample :
    ((serverOrdered false [⟨1, "a", none, none, some 1, none⟩,
        ⟨2, "b", none, none, some 2, none⟩]).map SPItem.Id = [2, 1]) ∧
    ((sharePointPipeline false [⟨1, "a", none, none, some 1, none⟩,
        ⟨2, "b", none, none, some 2, none⟩]).map MenuItem.order = [1, 2]) ∧
    ¬ ((sharePointPipeline false [⟨1, "a", none, none, some 1, none⟩,
        ⟨2, "b", none, none, some 2, none⟩]).map MenuItem.order).Sorted
      (fun a b : Int => b ≤ a) := by
  refine ⟨rfl, rfl, ?_⟩
  intro h
  rw [show ((sharePointPipeline false [⟨1, "a", none, none, some 1, none⟩,
      ⟨2, "b", none, none, some 2, none⟩]).map MenuItem.order) = [1, 2] from rfl] at h
  have h12 := List.rel_of_sorted_cons h 2 (by decide)
  omega
